import Mathlib

/-!
Verification of the token-by-token decoding engine in
`src/autoregressive/models/generatearcon.py`.

Shallow embedding conventions:
* A logit is modelled as `WithBot ℚ`; the bottom element `⊥` is the
  `filter_value = -inf` sentinel used by `top_k_top_p_filtering`.
* The exponential used by `F.softmax` maps into `ℝ`; `exp (-inf) = 0`.
* Tensors become nested lists: a `(batch, seq, vocab)` logits tensor is a
  `List (List (List ℚ))`, a row of logits at one position is a `List`.
* The external model (`model(...)` calls) is an oracle function carried in a
  `Model` structure; the stochastic `torch.multinomial` draw is an oracle
  argument.
* Fallible code (tuple-unpack errors, `torch.cat` on an empty list, assert
  failures, out-of-range indexing) returns `Except String` / `Option`.
-/

namespace GenArcon

/-- One logit value; `⊥` is the `-inf` sentinel written by the filter. -/
abbrev Logit := WithBot ℚ

/-- Exponential used by `F.softmax`, extended with `exp (-inf) = 0`. -/
noncomputable def expw : Logit → ℝ
  | ⊥ => 0
  | (q : ℚ) => Real.exp (q : ℝ)

/-- `F.softmax(row, dim=-1)`: each entry divided by the row's total
exponential mass. -/
noncomputable def softmaxRow (l : List Logit) : List ℝ :=
  l.map (fun x => expw x / (l.map expw).sum)

/-- Descending sort of a row, `torch.sort(logits, descending=True)` values. -/
def sortDesc (l : List Logit) : List Logit :=
  List.insertionSort (fun a b => b ≤ a) l

/-- `torch.topk(logits, k)[0][..., -1]`: the value of the `k`-th largest
logit of the row (`k ≥ 1`). -/
def kthLargest (l : List Logit) (k : ℕ) : Logit :=
  (sortDesc l).getD (k - 1) ⊥

/-- The top-k block of `top_k_top_p_filtering` (source lines 27-31):
clamp `top_k` to `[min_tokens_to_keep, vocab]`, then overwrite with the
sentinel every logit strictly below the `top_k`-th largest one. -/
def topKFilterRow (l : List Logit) (top_k min_tokens_to_keep : ℕ) :
    List Logit :=
  if 0 < top_k then
    let k := min (max top_k min_tokens_to_keep) l.length
    let thr := kthLargest l k
    l.map (fun x => if x < thr then ⊥ else x)
  else l

/-- `torch.cumsum(_, dim=-1)`: running partial sums of a row. -/
def cumsum : List ℝ → List ℝ
  | [] => []
  | x :: t => x :: (cumsum t).map (fun c => x + c)

/-- `cumulative_probs > top_p` on the descending-sorted row
(source line 38). -/
noncomputable def removeFlagsBase (s : List Logit) (top_p : ℚ) : List Bool :=
  (cumsum (softmaxRow s)).map (fun c => decide ((top_p : ℝ) < c))

/-- `sorted_indices_to_remove[..., :min_tokens_to_keep] = 0`
(source lines 39-41, executed only when `min_tokens_to_keep > 1`). -/
def keepFirstTokens (min_tokens_to_keep : ℕ) (bs : List Bool) : List Bool :=
  if 1 < min_tokens_to_keep then
    (bs.take min_tokens_to_keep).map (fun _ => false) ++
      bs.drop min_tokens_to_keep
  else bs

/-- The right-shift of the removal mask (source lines 43-44):
`mask[1:] = mask[:-1]; mask[0] = 0`. -/
def shiftRight (bs : List Bool) : List Bool :=
  match bs with
  | [] => []
  | _ :: _ => false :: bs.dropLast

/-- The removal mask in sorted order, as built by source lines 38-44. -/
noncomputable def removeFlags (s : List Logit) (top_p : ℚ)
    (min_tokens_to_keep : ℕ) : List Bool :=
  shiftRight (keepFirstTokens min_tokens_to_keep (removeFlagsBase s top_p))

/-- `torch.sort(logits, descending=True)` keeping the original position of
each value alongside it, used to model the index tensor of the sort. -/
def sortDescIdx (l : List Logit) : List (Logit × ℕ) :=
  List.insertionSort (fun a b => b.1 ≤ a.1) (l.zip (List.range l.length))

/-- The top-p (nucleus) block of `top_k_top_p_filtering` (source lines
33-48): sort descending, mark positions whose cumulative softmax mass
exceeds `top_p`, keep the first `min_tokens_to_keep` positions, shift the
mask right by one, scatter the mask back to original vocabulary order and
overwrite the marked logits with the sentinel.  The scatter is modelled by
re-sorting the (value, original index) pairs by original index. -/
noncomputable def topPFilterRow (l : List Logit) (top_p : ℚ)
    (min_tokens_to_keep : ℕ) : List Logit :=
  if 1 ≤ top_p then l
  else
    let si := sortDescIdx l
    let flags := removeFlags (si.map Prod.fst) top_p min_tokens_to_keep
    let masked := List.zipWith
      (fun (pr : Logit × ℕ) (b : Bool) => ((if b then ⊥ else pr.1), pr.2))
      si flags
    (List.insertionSort (fun a b => a.2 ≤ b.2) masked).map Prod.fst

/-- `top_k_top_p_filtering(logits, top_k, top_p, -inf, min_tokens_to_keep)`
for one row: the top-k block followed by the top-p block (source
lines 11-49). -/
noncomputable def top_k_top_p_filtering (l : List Logit)
    (top_k : ℕ) (top_p : ℚ) (min_tokens_to_keep : ℕ) : List Logit :=
  topPFilterRow (topKFilterRow l top_k min_tokens_to_keep) top_p
    min_tokens_to_keep

lemma sortDesc_perm (l : List Logit) : (sortDesc l).Perm l :=
  List.perm_insertionSort _ l

lemma sortDesc_sorted (l : List Logit) :
    (sortDesc l).Sorted (fun a b => b ≤ a) :=
  List.sorted_insertionSort _ l

lemma sortDesc_length (l : List Logit) : (sortDesc l).length = l.length :=
  (sortDesc_perm l).length_eq

lemma sorted_getElem_le (s : List Logit) (hs : s.Sorted (fun a b => b ≤ a))
    (i j : ℕ) (hij : i ≤ j) (hj : j < s.length) :
    s[j] ≤ s[i] := by
  rcases eq_or_lt_of_le hij with rfl | hlt
  · exact le_refl _
  · have := hs.rel_get_of_lt (a := ⟨i, lt_of_le_of_lt hij hj⟩) (b := ⟨j, hj⟩)
      hlt
    simpa using this

/-- In a descending-sorted row at least `k` entries are `≥` the `k`-th
entry. -/
lemma sorted_countP_ge (s : List Logit) (hs : s.Sorted (fun a b => b ≤ a))
    (k : ℕ) (hk1 : 1 ≤ k) (hk : k ≤ s.length) :
    k ≤ s.countP (fun x => decide (s.getD (k - 1) ⊥ ≤ x)) := by
  have hkn : k - 1 < s.length := by omega
  have hthr : s.getD (k - 1) ⊥ = s[k - 1] := List.getD_eq_getElem s ⊥ hkn
  have htake : ∀ x ∈ s.take k, s.getD (k - 1) ⊥ ≤ x := by
    intro x hx
    rcases List.mem_iff_getElem.1 hx with ⟨j, hj, rfl⟩
    have hjlen : j < k := by simp at hj; omega
    rw [List.getElem_take, hthr]
    exact sorted_getElem_le s hs j (k - 1) (by omega) hkn
  calc k = (s.take k).length := by simp [hk]
    _ = (s.take k).countP (fun x => decide (s.getD (k - 1) ⊥ ≤ x)) := by
        symm
        rw [List.countP_eq_length]
        intro a ha
        simpa using htake a ha
    _ ≤ s.countP (fun x => decide (s.getD (k - 1) ⊥ ≤ x)) := by
        have hsplit : s.countP (fun x => decide (s.getD (k - 1) ⊥ ≤ x)) =
            (s.take k).countP (fun x => decide (s.getD (k - 1) ⊥ ≤ x)) +
            (s.drop k).countP (fun x => decide (s.getD (k - 1) ⊥ ≤ x)) := by
          rw [← List.countP_append, List.take_append_drop]
        omega

/-- In a descending-sorted row, when the `(k+1)`-th entry is strictly below
the `k`-th (no tie at the threshold), exactly `k` entries are `≥` the `k`-th
entry. -/
lemma sorted_countP_eq (s : List Logit) (hs : s.Sorted (fun a b => b ≤ a))
    (k : ℕ) (hk1 : 1 ≤ k) (hk : k ≤ s.length)
    (hnotie : k = s.length ∨ s.getD k ⊥ < s.getD (k - 1) ⊥) :
    s.countP (fun x => decide (s.getD (k - 1) ⊥ ≤ x)) = k := by
  have hdrop :
      (s.drop k).countP (fun x => decide (s.getD (k - 1) ⊥ ≤ x)) = 0 := by
    rcases hnotie with rfl | hlt
    · simp
    · rw [List.countP_eq_zero]
      intro a ha
      rcases List.mem_iff_getElem.1 ha with ⟨j, hj, rfl⟩
      have hkj : k + j < s.length := by simp at hj; omega
      rw [List.getElem_drop]
      have h1 : s[k + j] ≤ s[k] :=
        sorted_getElem_le s hs k (k + j) (by omega) hkj
      have h2 : s[k] < s.getD (k - 1) ⊥ := by
        rwa [List.getD_eq_getElem s ⊥ (by omega : k < s.length)] at hlt
      simp only [decide_eq_true_eq, not_le]
      exact lt_of_le_of_lt h1 h2
  have htake :
      (s.take k).countP (fun x => decide (s.getD (k - 1) ⊥ ≤ x)) = k := by
    have hkn : k - 1 < s.length := by omega
    have hthr : s.getD (k - 1) ⊥ = s[k - 1] := List.getD_eq_getElem s ⊥ hkn
    rw [List.countP_eq_length.2, List.length_take]
    · omega
    · intro a ha
      rcases List.mem_iff_getElem.1 ha with ⟨j, hj, rfl⟩
      rw [List.getElem_take, hthr]
      have hjlen : j < k := by simp at hj; omega
      simpa using sorted_getElem_le s hs j (k - 1) (by omega) hkn
  have hsplit : s.countP (fun x => decide (s.getD (k - 1) ⊥ ≤ x)) =
      (s.take k).countP (fun x => decide (s.getD (k - 1) ⊥ ≤ x)) +
      (s.drop k).countP (fun x => decide (s.getD (k - 1) ⊥ ≤ x)) := by
    rw [← List.countP_append, List.take_append_drop]
  omega

/-- On a row with no pre-excluded entries, the survivors of the top-k block
are exactly the entries at or above the threshold. -/
lemma topk_count_core (l : List Logit) (top_k mk : ℕ) (hk : 0 < top_k)
    (hreal : ∀ x ∈ l, x ≠ ⊥) :
    (topKFilterRow l top_k mk).countP (fun x => decide (x ≠ ⊥)) =
      l.countP
        (fun x => decide (kthLargest l (min (max top_k mk) l.length) ≤ x)) := by
  rw [topKFilterRow, if_pos hk]
  rw [List.countP_map]
  apply List.countP_congr
  intro x hx
  have hx' : x ≠ ⊥ := hreal x hx
  by_cases h : x < kthLargest l (min (max top_k mk) l.length)
  · simp [h, not_le.2 h]
  · simp [h, hx', not_lt.1 h]

/-- Claim C4: for every real-valued logits row and every `top_k = k > 0`,
the filter clamps `k` to `[min_tokens_to_keep, vocab_size]`, overwrites with
the sentinel exactly the logits strictly below the `k`-th largest logit
(keeping ties at the threshold), so the number of non-excluded entries is at
least the clamped `k`, with equality when there is no tie at the threshold;
and with `top_p = 1` the whole filter is exactly this top-k block. -/
theorem C4_topk_threshold (l : List Logit) (top_k mk : ℕ)
    (hk : 0 < top_k) (hreal : ∀ x ∈ l, x ≠ ⊥) (hne : l ≠ []) :
    topKFilterRow l top_k mk =
      l.map (fun x =>
        if x < kthLargest l (min (max top_k mk) l.length) then ⊥ else x) ∧
    min (max top_k mk) l.length ≤
      (topKFilterRow l top_k mk).countP (fun x => decide (x ≠ ⊥)) ∧
    ((min (max top_k mk) l.length = l.length ∨
        (sortDesc l).getD (min (max top_k mk) l.length) ⊥ <
          kthLargest l (min (max top_k mk) l.length)) →
      (topKFilterRow l top_k mk).countP (fun x => decide (x ≠ ⊥)) =
        min (max top_k mk) l.length) ∧
    top_k_top_p_filtering l top_k 1 mk = topKFilterRow l top_k mk := by
  have hlen : 0 < l.length := List.length_pos.2 hne
  have hk1 : 1 ≤ min (max top_k mk) l.length := by
    have : 1 ≤ max top_k mk := le_trans hk (le_max_left _ _)
    omega
  have hkle : min (max top_k mk) l.length ≤ (sortDesc l).length := by
    rw [sortDesc_length]; omega
  have hsort := sortDesc_sorted l
  refine ⟨by rw [topKFilterRow, if_pos hk], ?_, ?_, ?_⟩
  · rw [topk_count_core l top_k mk hk hreal, ← (sortDesc_perm l).countP_eq]
    exact sorted_countP_ge (sortDesc l) hsort _ hk1 hkle
  · intro hnotie
    rw [topk_count_core l top_k mk hk hreal, ← (sortDesc_perm l).countP_eq]
    apply sorted_countP_eq (sortDesc l) hsort _ hk1 hkle
    rcases hnotie with h | h
    · left; rw [sortDesc_length]; omega
    · right; exact h
  · simp [top_k_top_p_filtering, topPFilterRow]

/-- Witness for C4 at the spec scenario row `[2, 1, 0.1, 0.1]` with
`top_k = 2`: the hypotheses hold and at least 2 entries survive. -/
theorem C4_topk_threshold_witness :
    ((0 < 2 ∧
        (∀ x ∈ [((2:ℚ):Logit), ((1:ℚ):Logit), ((1/10:ℚ):Logit),
          ((1/10:ℚ):Logit)], x ≠ ⊥) ∧
        [((2:ℚ):Logit), ((1:ℚ):Logit), ((1/10:ℚ):Logit),
          ((1/10:ℚ):Logit)] ≠ []) ∧
      min (max 2 1) ([((2:ℚ):Logit), ((1:ℚ):Logit), ((1/10:ℚ):Logit),
          ((1/10:ℚ):Logit)].length) ≤
        (topKFilterRow [((2:ℚ):Logit), ((1:ℚ):Logit), ((1/10:ℚ):Logit),
          ((1/10:ℚ):Logit)] 2 1).countP (fun x => decide (x ≠ ⊥))) :=
  ⟨⟨by decide, by decide, by decide⟩,
    (C4_topk_threshold [((2:ℚ):Logit), ((1:ℚ):Logit), ((1/10:ℚ):Logit),
      ((1/10:ℚ):Logit)] 2 1 (by decide) (by decide) (by decide)).2.1⟩

lemma expw_nonneg (x : Logit) : 0 ≤ expw x := by
  cases x with
  | none => simp [expw]
  | some q => exact le_of_lt (Real.exp_pos _)

lemma expw_pos_iff (x : Logit) : 0 < expw x ↔ x ≠ ⊥ := by
  cases x with
  | none =>
    constructor
    · intro h
      simp [expw] at h
    · intro h
      exact absurd rfl h
  | some q => simpa [expw] using Real.exp_pos (q : ℝ)

/-- Total exponential mass of a row, the softmax denominator. -/
noncomputable def rowSum (l : List Logit) : ℝ := (l.map expw).sum

/-- Probability mass assigned by the row `l`'s softmax to the non-excluded
entries of a row `r` (the sentinel contributes zero mass). -/
noncomputable def rowMass (l r : List Logit) : ℝ :=
  (r.map expw).sum / rowSum l

/-- The non-excluded entries of a row. -/
def keptEntries (r : List Logit) : List Logit :=
  r.filter (fun x => decide (x ≠ ⊥))

lemma rowSum_nonneg (l : List Logit) : 0 ≤ rowSum l := by
  apply List.sum_nonneg
  intro x hx
  rcases List.mem_map.1 hx with ⟨y, _, rfl⟩
  exact expw_nonneg y

lemma rowSum_pos (l : List Logit) (h : ∃ x ∈ l, x ≠ ⊥) : 0 < rowSum l := by
  rcases h with ⟨x, hx, hxb⟩
  have hpos : 0 < expw x := (expw_pos_iff x).2 hxb
  have hmem : expw x ∈ l.map expw := List.mem_map_of_mem expw hx
  refine lt_of_lt_of_le hpos (List.single_le_sum ?_ _ hmem)
  intro y hy
  rcases List.mem_map.1 hy with ⟨z, _, rfl⟩
  exact expw_nonneg z

lemma sum_map_div (l : List Logit) (S : ℝ) :
    (l.map (fun x => expw x / S)).sum = (l.map expw).sum / S := by
  induction l with
  | nil => simp
  | cons a t ih => simp [ih, add_div]

lemma softmaxRow_sum (l : List Logit) (h : ∃ x ∈ l, x ≠ ⊥) :
    (softmaxRow l).sum = 1 := by
  rw [softmaxRow, sum_map_div]
  exact div_self (ne_of_gt (rowSum_pos l h))

lemma softmaxRow_length (l : List Logit) :
    (softmaxRow l).length = l.length := by simp [softmaxRow]

lemma cumsum_length (q : List ℝ) : (cumsum q).length = q.length := by
  induction q with
  | nil => rfl
  | cons a t ih => simp [cumsum, ih]

lemma cumsum_getElem (q : List ℝ) (i : ℕ) (hi : i < (cumsum q).length) :
    (cumsum q)[i] = (q.take (i + 1)).sum := by
  induction q generalizing i with
  | nil => simp [cumsum] at hi
  | cons a t ih =>
    cases i with
    | zero => simp [cumsum]
    | succ j =>
      have hj : j < (cumsum t).length := by
        simpa [cumsum, cumsum_length] using hi
      simp only [cumsum, List.getElem_cons_succ, List.getElem_map]
      rw [ih j hj]
      simp [List.take_succ_cons, List.sum_cons]

lemma cumsum_sorted (q : List ℝ) (hq : ∀ x ∈ q, 0 ≤ x) :
    (cumsum q).Sorted (· ≤ ·) := by
  induction q with
  | nil => simp [cumsum]
  | cons a t ih =>
    have ht : ∀ x ∈ t, 0 ≤ x := fun x hx => hq x (List.mem_cons_of_mem a hx)
    have hmap : ((cumsum t).map (fun c => a + c)).Sorted (· ≤ ·) := by
      apply List.Pairwise.map
      · intro x y hxy
        exact add_le_add_left hxy a
      · exact ih ht
    simp only [cumsum]
    rw [List.sorted_cons]
    refine ⟨?_, hmap⟩
    intro b hb
    rcases List.mem_map.1 hb with ⟨c, hc, rfl⟩
    have hc0 : 0 ≤ c := by
      rcases List.mem_iff_getElem.1 hc with ⟨i, hi, rfl⟩
      rw [cumsum_getElem]
      apply List.sum_nonneg
      intro y hy
      exact ht y (List.mem_of_mem_take hy)
    have ha : 0 ≤ a := hq a (List.mem_cons_self a t)
    linarith

/-- A pointwise threshold test on a nondecreasing row yields a block of
`false` then a block of `true`, with value bounds on each block. -/
lemma map_decide_shape (c : List ℝ) (τ : ℝ) (hc : c.Sorted (· ≤ ·)) :
    ∃ k, k ≤ c.length ∧
      c.map (fun v => decide (τ < v)) =
        List.replicate k false ++ List.replicate (c.length - k) true ∧
      (∀ x ∈ c.take k, x ≤ τ) ∧ (∀ x ∈ c.drop k, τ < x) := by
  induction c with
  | nil => exact ⟨0, by simp⟩
  | cons a t ih =>
    rw [List.sorted_cons] at hc
    by_cases ha : τ < a
    · refine ⟨0, by simp, ?_, by simp, ?_⟩
      · have hall : ∀ b ∈ (a :: t), decide (τ < b) = true := by
          intro b hb
          rcases List.mem_cons.1 hb with rfl | hbt
          · simpa using ha
          · simpa using lt_of_lt_of_le ha (hc.1 b hbt)
        simp only [List.replicate_zero, List.nil_append]
        apply List.eq_replicate_iff.2
        refine ⟨by simp, ?_⟩
        intro b hb
        rcases List.mem_map.1 hb with ⟨y, hy, rfl⟩
        exact hall y hy
      · intro x hx
        rcases List.mem_cons.1 (by simpa using hx) with rfl | hxt
        · exact ha
        · exact lt_of_lt_of_le ha (hc.1 x hxt)
    · rcases ih hc.2 with ⟨k, hk, hshape, htake, hdrop⟩
      refine ⟨k + 1, by simp; omega, ?_, ?_, ?_⟩
      · simp only [List.map_cons, hshape, List.replicate_succ,
          List.length_cons]
        have hfa : decide (τ < a) = false := by simpa using ha
        rw [hfa]
        simp
      · intro x hx
        rw [List.take_succ_cons] at hx
        rcases List.mem_cons.1 hx with rfl | hxt
        · exact not_lt.1 ha
        · exact htake x hxt
      · intro x hx
        rw [List.drop_succ_cons] at hx
        exact hdrop x hx

lemma shiftRight_shape (k m : ℕ) (hm : 1 ≤ m) :
    shiftRight (List.replicate k false ++ List.replicate m true) =
      List.replicate (k + 1) false ++ List.replicate (m - 1) true := by
  have hrepl : List.replicate m true =
      List.replicate (m - 1) true ++ [true] := by
    have hm' : m = (m - 1) + 1 := by omega
    rw [hm']
    simp [List.replicate_succ' (m - 1) true]
  have hne : List.replicate k false ++ List.replicate m true ≠ [] := by
    simp
    omega
  have hstep : ∀ bs : List Bool, bs ≠ [] →
      shiftRight bs = false :: bs.dropLast := by
    intro bs hbs
    cases bs with
    | nil => exact absurd rfl hbs
    | cons b t => rfl
  rw [hstep _ hne, hrepl, ← List.append_assoc, List.dropLast_concat]
  simp [List.replicate_succ]

lemma zipWith_mask_take (s : List Logit) (k : ℕ) (rest : List Bool)
    (hk : k ≤ s.length) :
    List.zipWith (fun x b => if b then (⊥ : Logit) else x) s
        (List.replicate k false ++ rest) =
      s.take k ++
        List.zipWith (fun x b => if b then (⊥ : Logit) else x) (s.drop k)
          rest := by
  induction k generalizing s with
  | zero => simp
  | succ j ih =>
    cases s with
    | nil => simp at hk
    | cons a t =>
      simp only [List.replicate_succ, List.cons_append, List.zipWith_cons_cons,
        List.take_succ_cons, List.drop_succ_cons, List.cons_append]
      rw [ih t (by simpa using hk)]
      simp

lemma zipWith_mask_true (s : List Logit) (m : ℕ) (hm : s.length ≤ m) :
    List.zipWith (fun x b => if b then (⊥ : Logit) else x) s
        (List.replicate m true) =
      s.map (fun _ => (⊥ : Logit)) := by
  induction s generalizing m with
  | nil => simp
  | cons a t ih =>
    cases m with
    | zero => simp at hm
    | succ j =>
      simp only [List.replicate_succ, List.zipWith_cons_cons, List.map_cons]
      rw [ih j (by simpa using hm)]
      simp

lemma sortDescIdx_fst (l : List Logit) :
    (sortDescIdx l).map Prod.fst = sortDesc l := by
  have h := List.map_insertionSort
    (r := fun a b : Logit × ℕ => b.1 ≤ a.1) (s := fun a b : Logit => b ≤ a)
    Prod.fst (l.zip (List.range l.length)) (fun a _ b _ => Iff.rfl)
  rw [sortDescIdx, sortDesc, h]
  congr 1
  exact List.map_fst_zip l (List.range l.length) (by simp)

lemma sortDescIdx_length (l : List Logit) :
    (sortDescIdx l).length = l.length := by
  rw [sortDescIdx, List.length_insertionSort, List.length_zip,
    List.length_range, min_self]

lemma masked_map_fst (si : List (Logit × ℕ)) (flags : List Bool) :
    (List.zipWith
        (fun (pr : Logit × ℕ) (b : Bool) =>
          ((if b then (⊥ : Logit) else pr.1), pr.2)) si flags).map Prod.fst =
      List.zipWith (fun x b => if b then (⊥ : Logit) else x)
        (si.map Prod.fst) flags := by
  induction si generalizing flags with
  | nil => simp
  | cons a t ih =>
    cases flags with
    | nil => simp
    | cons b bs => simp [ih]

/-- Structure of the nucleus mask: for a row with at least one real entry
and `0 < p < 1`, the output of the top-p block is, up to the scatter
permutation, the first `k0 + 1` entries of the descending sort followed by
sentinels, where `k0` is the first sorted position whose cumulative mass
exceeds `p`. -/
lemma topP_structure (l : List Logit) (p : ℚ) (mk : ℕ)
    (hne : ∃ x ∈ l, x ≠ ⊥) (hp0 : 0 < p) (hp1 : p < 1) (hmk : mk ≤ 1) :
    ∃ k0, k0 < l.length ∧
      (topPFilterRow l p mk).Perm
        ((sortDesc l).take (k0 + 1) ++
          ((sortDesc l).drop (k0 + 1)).map (fun _ => (⊥ : Logit))) ∧
      (∀ x ∈ (cumsum (softmaxRow (sortDesc l))).take k0, x ≤ (p : ℝ)) ∧
      (∀ x ∈ (cumsum (softmaxRow (sortDesc l))).drop k0, (p : ℝ) < x) := by
  have hplt : ¬ (1 ≤ p) := not_le.2 hp1
  have hsfst : (sortDescIdx l).map Prod.fst = sortDesc l := sortDescIdx_fst l
  have hsperm : (sortDesc l).Perm l := sortDesc_perm l
  have hnes : ∃ x ∈ sortDesc l, x ≠ ⊥ := by
    rcases hne with ⟨x, hx, hb⟩
    exact ⟨x, hsperm.mem_iff.2 hx, hb⟩
  have hq0 : ∀ x ∈ softmaxRow (sortDesc l), 0 ≤ x := by
    intro x hx
    rcases List.mem_map.1 hx with ⟨y, _, rfl⟩
    exact div_nonneg (expw_nonneg y) (rowSum_nonneg _)
  have hcsort := cumsum_sorted (softmaxRow (sortDesc l)) hq0
  obtain ⟨k0, hk0le, hshape, hcle, hcgt⟩ :=
    map_decide_shape (cumsum (softmaxRow (sortDesc l))) (p : ℝ) hcsort
  have hclen : (cumsum (softmaxRow (sortDesc l))).length = l.length := by
    rw [cumsum_length, softmaxRow_length, sortDesc_length]
  have hlpos : 0 < l.length := by
    rcases hne with ⟨x, hx, _⟩
    exact List.length_pos.2 (List.ne_nil_of_mem hx)
  have hk0lt : k0 < l.length := by
    rcases lt_or_eq_of_le hk0le with h | h
    · omega
    · exfalso
      have hnc : 0 < (cumsum (softmaxRow (sortDesc l))).length := by omega
      have hlast : (cumsum (softmaxRow (sortDesc l)))[
          (cumsum (softmaxRow (sortDesc l))).length - 1] =
          (softmaxRow (sortDesc l)).sum := by
        rw [cumsum_getElem]
        have hlen2 : (softmaxRow (sortDesc l)).length =
            (cumsum (softmaxRow (sortDesc l))).length := by
          rw [cumsum_length]
        rw [List.take_of_length_le (by omega)]
      have hone : (softmaxRow (sortDesc l)).sum = 1 := softmaxRow_sum _ hnes
      have hmem : (cumsum (softmaxRow (sortDesc l)))[
          (cumsum (softmaxRow (sortDesc l))).length - 1] ∈
          (cumsum (softmaxRow (sortDesc l))).take k0 := by
        rw [h, List.take_of_length_le (by omega)]
        exact List.getElem_mem _
      have := hcle _ hmem
      rw [hlast, hone] at this
      have hp1R : (p : ℝ) < 1 := by exact_mod_cast hp1
      linarith
  refine ⟨k0, hk0lt, ?_, hcle, hcgt⟩
  have hkeep : keepFirstTokens mk (removeFlagsBase (sortDesc l) p) =
      removeFlagsBase (sortDesc l) p := by
    rw [keepFirstTokens, if_neg (by omega)]
  have hflags : removeFlags (sortDesc l) p mk =
      List.replicate (k0 + 1) false ++
        List.replicate (l.length - k0 - 1) true := by
    rw [removeFlags, hkeep, removeFlagsBase, hshape, hclen]
    rw [shiftRight_shape k0 (l.length - k0) (by omega)]
  have hmasked :
      List.zipWith (fun x b => if b then (⊥ : Logit) else x) (sortDesc l)
          (removeFlags (sortDesc l) p mk) =
        (sortDesc l).take (k0 + 1) ++
          ((sortDesc l).drop (k0 + 1)).map (fun _ => (⊥ : Logit)) := by
    rw [hflags, zipWith_mask_take (sortDesc l) (k0 + 1) _
      (by rw [sortDesc_length]; omega)]
    congr 1
    apply zipWith_mask_true
    rw [List.length_drop, sortDesc_length]
    omega
  rw [topPFilterRow, if_neg hplt]
  show ((List.insertionSort (fun a b : Logit × ℕ => a.2 ≤ b.2)
      (List.zipWith
        (fun (pr : Logit × ℕ) (b : Bool) =>
          ((if b then (⊥ : Logit) else pr.1), pr.2)) (sortDescIdx l)
        (removeFlags ((sortDescIdx l).map Prod.fst) p mk))).map
      Prod.fst).Perm _
  rw [hsfst]
  have hperm1 := (List.perm_insertionSort
    (fun a b : Logit × ℕ => a.2 ≤ b.2)
    (List.zipWith
      (fun (pr : Logit × ℕ) (b : Bool) =>
        ((if b then (⊥ : Logit) else pr.1), pr.2)) (sortDescIdx l)
      (removeFlags (sortDesc l) p mk))).map Prod.fst
  rw [masked_map_fst, hsfst] at hperm1
  rw [← hmasked]
  exact hperm1

/-- Claim C5 (amended): for every row with at least one non-excluded entry,
`top_p = p` in `(0,1)` and `min_tokens_to_keep ≤ 1`, the top-p block keeps
entries whose cumulative softmax mass is at least `p` (in fact strictly
exceeds it), and removing the lowest-ranked kept entry would bring the mass
down to at most `p` (not necessarily strictly below `p`). -/
theorem C5_topp_nucleus (l : List Logit) (p : ℚ) (mk : ℕ)
    (hne : ∃ x ∈ l, x ≠ ⊥) (hp0 : 0 < p) (hp1 : p < 1) (hmk : mk ≤ 1) :
    (p : ℝ) ≤ rowMass l (topPFilterRow l p mk) ∧
    ∀ m ∈ keptEntries (topPFilterRow l p mk),
      (∀ y ∈ keptEntries (topPFilterRow l p mk), m ≤ y) →
      rowMass l (topPFilterRow l p mk) - expw m / rowSum l ≤ (p : ℝ) := by
  obtain ⟨k0, hk0lt, hperm, hcle, hcgt⟩ :=
    topP_structure l p mk hne hp0 hp1 hmk
  have hsperm : (sortDesc l).Perm l := sortDesc_perm l
  have hnes : ∃ x ∈ sortDesc l, x ≠ ⊥ := by
    rcases hne with ⟨x, hx, hb⟩
    exact ⟨x, hsperm.mem_iff.2 hx, hb⟩
  have hSpos : 0 < rowSum l := rowSum_pos l hne
  have hSs : rowSum (sortDesc l) = rowSum l := (hsperm.map expw).sum_eq
  have hslen : (sortDesc l).length = l.length := sortDesc_length l
  have hqlen : (softmaxRow (sortDesc l)).length = l.length := by
    rw [softmaxRow_length, hslen]
  have hclen : (cumsum (softmaxRow (sortDesc l))).length = l.length := by
    rw [cumsum_length, hqlen]
  -- mass of the output row
  have hsum1 : ((topPFilterRow l p mk).map expw).sum =
      (((sortDesc l).take (k0 + 1)).map expw).sum := by
    rw [(hperm.map expw).sum_eq, List.map_append, List.sum_append,
      List.map_map]
    have hz : ((sortDesc l).drop (k0 + 1)).map (expw ∘ fun _ => (⊥ : Logit)) =
        ((sortDesc l).drop (k0 + 1)).map (fun _ => (0 : ℝ)) := by
      apply List.map_congr_left
      intro a _
      simp [expw]
    rw [hz]
    simp
  -- cumulative mass identity at sorted position k0
  have hck0 : (cumsum (softmaxRow (sortDesc l)))[k0] =
      (((sortDesc l).take (k0 + 1)).map expw).sum / rowSum l := by
    rw [cumsum_getElem]
    have htk : (softmaxRow (sortDesc l)).take (k0 + 1) =
        ((sortDesc l).take (k0 + 1)).map
          (fun x => expw x / rowSum (sortDesc l)) := by
      rw [softmaxRow, rowSum, List.map_take]
    rw [htk, sum_map_div, hSs]
  have hmassval : rowMass l (topPFilterRow l p mk) =
      (cumsum (softmaxRow (sortDesc l)))[k0] := by
    rw [rowMass, hsum1, hck0]
  have hck0mem : (cumsum (softmaxRow (sortDesc l)))[k0] ∈
      (cumsum (softmaxRow (sortDesc l))).drop k0 := by
    rw [← List.getElem_cons_drop _ k0 (by omega)]
    exact List.mem_cons_self _ _
  have hmassgt : (p : ℝ) < rowMass l (topPFilterRow l p mk) := by
    rw [hmassval]
    exact hcgt _ hck0mem
  refine ⟨le_of_lt hmassgt, ?_⟩
  -- the lowest-ranked kept entry is the k0-th sorted entry
  intro m hm hmin
  have hqk0 : (softmaxRow (sortDesc l))[k0] =
      expw ((sortDesc l)[k0]) / rowSum l := by
    simp only [softmaxRow, List.getElem_map]
    have hSs' : rowSum l = ((sortDesc l).map expw).sum := hSs.symm
    rw [hSs']
  have hqpos : 0 < (softmaxRow (sortDesc l))[k0] := by
    have hsplit : (cumsum (softmaxRow (sortDesc l)))[k0] =
        ((softmaxRow (sortDesc l)).take k0).sum +
          (softmaxRow (sortDesc l))[k0] := by
      rw [cumsum_getElem]
      exact List.sum_take_succ _ _ _
    have hgtp : (p : ℝ) < (cumsum (softmaxRow (sortDesc l)))[k0] :=
      hcgt _ hck0mem
    rcases Nat.eq_zero_or_pos k0 with hk00 | hk0pos
    · subst hk00
      have hp0R : (0 : ℝ) < (p : ℝ) := by exact_mod_cast hp0
      simp only [List.take_zero, List.sum_nil, zero_add] at hsplit
      rw [hsplit] at hgtp
      linarith
    · have hbt : k0 - 1 < ((cumsum (softmaxRow (sortDesc l))).take
          k0).length := by
        rw [List.length_take]
        omega
      have hprev : (cumsum (softmaxRow (sortDesc l)))[k0 - 1] ≤
          (p : ℝ) := by
        apply hcle
        have hgetm : (cumsum (softmaxRow (sortDesc l)))[k0 - 1] =
            ((cumsum (softmaxRow (sortDesc l))).take k0)[k0 - 1] := by
          rw [List.getElem_take]
        rw [hgetm]
        exact List.getElem_mem _
      have hprevval : (cumsum (softmaxRow (sortDesc l)))[k0 - 1] =
          ((softmaxRow (sortDesc l)).take k0).sum := by
        rw [cumsum_getElem]
        congr 1
        congr 1
        omega
      rw [hsplit] at hgtp
      rw [hprevval] at hprev
      linarith
  have hsk0 : (sortDesc l)[k0] ≠ ⊥ := by
    rw [← expw_pos_iff]
    rw [hqk0] at hqpos
    by_contra hc
    push_neg at hc
    have : expw ((sortDesc l)[k0]) / rowSum l ≤ 0 :=
      div_nonpos_of_nonpos_of_nonneg hc (le_of_lt hSpos)
    linarith
  have hsorted := sortDesc_sorted l
  have htakeall : ∀ x ∈ (sortDesc l).take (k0 + 1), x ≠ ⊥ := by
    intro x hx
    rcases List.mem_iff_getElem.1 hx with ⟨j, hj, rfl⟩
    have hjlt : j < k0 + 1 := by
      rw [List.length_take] at hj
      omega
    rw [List.getElem_take]
    intro hbot
    apply hsk0
    have hle := sorted_getElem_le (sortDesc l) hsorted j k0 (by omega)
      (by omega)
    rw [hbot] at hle
    exact le_bot_iff.1 hle
  -- kept entries of the output are exactly the first k0+1 sorted entries
  have hkept : (keptEntries (topPFilterRow l p mk)).Perm
      ((sortDesc l).take (k0 + 1)) := by
    rw [keptEntries]
    have h1 := hperm.filter (fun x => decide (x ≠ ⊥))
    rw [List.filter_append] at h1
    have h2 : (((sortDesc l).drop (k0 + 1)).map
        (fun _ => (⊥ : Logit))).filter (fun x => decide (x ≠ ⊥)) = [] := by
      rw [List.filter_eq_nil_iff]
      intro a ha
      rcases List.mem_map.1 ha with ⟨y, _, rfl⟩
      simp
    have h3 : ((sortDesc l).take (k0 + 1)).filter
        (fun x => decide (x ≠ ⊥)) = (sortDesc l).take (k0 + 1) := by
      rw [List.filter_eq_self]
      intro a ha
      simpa using htakeall a ha
    rw [h2, h3, List.append_nil] at h1
    exact h1
  have hbt2 : k0 < ((sortDesc l).take (k0 + 1)).length := by
    rw [List.length_take]
    omega
  have hsk0mem : (sortDesc l)[k0] ∈
      keptEntries (topPFilterRow l p mk) := by
    rw [hkept.mem_iff]
    have hg : (sortDesc l)[k0] =
        ((sortDesc l).take (k0 + 1))[k0] := by
      rw [List.getElem_take]
    rw [hg]
    exact List.getElem_mem _
  have hmle : m ≤ (sortDesc l)[k0] := hmin _ hsk0mem
  have hmge : (sortDesc l)[k0] ≤ m := by
    have hm' : m ∈ (sortDesc l).take (k0 + 1) := hkept.mem_iff.1 hm
    rcases List.mem_iff_getElem.1 hm' with ⟨j, hj, rfl⟩
    have hjlt : j < k0 + 1 := by
      rw [List.length_take] at hj
      omega
    rw [List.getElem_take]
    exact sorted_getElem_le (sortDesc l) hsorted j k0 (by omega) (by omega)
  have hmeq : m = (sortDesc l)[k0] := le_antisymm hmle hmge
  -- final arithmetic
  have hstep : rowMass l (topPFilterRow l p mk) - expw m / rowSum l =
      ((softmaxRow (sortDesc l)).take k0).sum := by
    rw [hmassval, hmeq, ← hqk0, cumsum_getElem, List.sum_take_succ]
    ring
  rw [hstep]
  rcases Nat.eq_zero_or_pos k0 with hk00 | hk0pos
  · subst hk00
    have hp0R : (0 : ℝ) < (p : ℝ) := by exact_mod_cast hp0
    simp
    linarith
  · have hprevval : (cumsum (softmaxRow (sortDesc l)))[k0 - 1] =
        ((softmaxRow (sortDesc l)).take k0).sum := by
      rw [cumsum_getElem]
      congr 1
      congr 1
      omega
    rw [← hprevval]
    apply hcle
    have hbt3 : k0 - 1 < ((cumsum (softmaxRow (sortDesc l))).take
        k0).length := by
      rw [List.length_take]
      omega
    have hgetm : (cumsum (softmaxRow (sortDesc l)))[k0 - 1] =
        ((cumsum (softmaxRow (sortDesc l))).take k0)[k0 - 1] := by
      rw [List.getElem_take]
    rw [hgetm]
    exact List.getElem_mem _

lemma cex_si : sortDescIdx [((0:ℚ):Logit), ((0:ℚ):Logit)] =
    [(((0:ℚ):Logit), 0), (((0:ℚ):Logit), 1)] := by decide

lemma cex_expw : expw ((0:ℚ):Logit) = 1 := by
  show Real.exp ((0:ℚ):ℝ) = 1
  norm_num [Real.exp_zero]

lemma cex_expw' : expw (0:Logit) = 1 := cex_expw

lemma cex_softmax : softmaxRow [((0:ℚ):Logit), ((0:ℚ):Logit)] =
    [1/2, 1/2] := by
  rw [softmaxRow]
  simp [cex_expw, cex_expw']
  norm_num

lemma cex_base : removeFlagsBase [((0:ℚ):Logit), ((0:ℚ):Logit)] (1/2) =
    [false, true] := by
  rw [removeFlagsBase, cex_softmax]
  show List.map _ (cumsum [1/2, 1/2]) = [false, true]
  have h1 : cumsum [(1:ℝ)/2, 1/2] = [1/2, 1] := by
    simp [cumsum]
    norm_num
  rw [h1]
  simp only [List.map_cons, List.map_nil]
  have e1 : decide ((((1:ℚ)/2 : ℚ) : ℝ) < ((1:ℝ)/2)) = false := by
    rw [decide_eq_false_iff_not]
    push_cast
    norm_num
  have e2 : decide ((((1:ℚ)/2 : ℚ) : ℝ) < (1:ℝ)) = true := by
    rw [decide_eq_true_eq]
    push_cast
    norm_num
  rw [e1, e2]

lemma cex_flags : removeFlags [((0:ℚ):Logit), ((0:ℚ):Logit)] (1/2) 1 =
    [false, false] := by
  rw [removeFlags, keepFirstTokens, if_neg (by norm_num), cex_base]
  rfl

lemma cex_out : topPFilterRow [((0:ℚ):Logit), ((0:ℚ):Logit)] (1/2) 1 =
    [((0:ℚ):Logit), ((0:ℚ):Logit)] := by
  rw [topPFilterRow, if_neg (by norm_num)]
  show (List.insertionSort _ (List.zipWith _ (sortDescIdx _)
    (removeFlags ((sortDescIdx _).map Prod.fst) (1/2) 1))).map Prod.fst = _
  rw [cex_si]
  have hfst : ([(((0:ℚ):Logit), 0), (((0:ℚ):Logit), 1)].map Prod.fst) =
      [((0:ℚ):Logit), ((0:ℚ):Logit)] := by decide
  rw [hfst, cex_flags]
  decide

lemma cex_mass :
    rowMass [((0:ℚ):Logit), ((0:ℚ):Logit)]
        (topPFilterRow [((0:ℚ):Logit), ((0:ℚ):Logit)] (1/2) 1) -
      expw ((0:ℚ):Logit) / rowSum [((0:ℚ):Logit), ((0:ℚ):Logit)] =
    ((1:ℚ)/2 : ℚ) := by
  rw [cex_out, rowMass, rowSum]
  simp [cex_expw, cex_expw']
  norm_num

/-- Counterexample to claim C5 as stated: on the row `[0, 0]` with
`top_p = 1/2`, the filter keeps both entries, the lowest-ranked kept entry
is `0`, and removing it leaves cumulative mass exactly `1/2` — not strictly
below `top_p` as the claim requires. -/
theorem C5_strict_drop_cex :
    topPFilterRow [((0:ℚ):Logit), ((0:ℚ):Logit)] (1/2) 1 =
      [((0:ℚ):Logit), ((0:ℚ):Logit)] ∧
    ((0:ℚ):Logit) ∈
      keptEntries (topPFilterRow [((0:ℚ):Logit), ((0:ℚ):Logit)] (1/2) 1) ∧
    (∀ y ∈
        keptEntries (topPFilterRow [((0:ℚ):Logit), ((0:ℚ):Logit)] (1/2) 1),
      ((0:ℚ):Logit) ≤ y) ∧
    ¬ (rowMass [((0:ℚ):Logit), ((0:ℚ):Logit)]
          (topPFilterRow [((0:ℚ):Logit), ((0:ℚ):Logit)] (1/2) 1) -
        expw ((0:ℚ):Logit) / rowSum [((0:ℚ):Logit), ((0:ℚ):Logit)] <
        (((1:ℚ)/2 : ℚ) : ℝ)) := by
  refine ⟨cex_out, ?_, ?_, ?_⟩
  · rw [cex_out]
    decide
  · rw [cex_out]
    decide
  · rw [cex_mass]
    push_cast
    norm_num

/-- Witness for the amended C5 on the row `[0, 1]` with `top_p = 1/2`. -/
theorem C5_topp_nucleus_witness :
    (∃ x ∈ [((0:ℚ):Logit), ((1:ℚ):Logit)], x ≠ ⊥) ∧
    (((1/2 : ℚ) : ℝ) ≤
        rowMass [((0:ℚ):Logit), ((1:ℚ):Logit)]
          (topPFilterRow [((0:ℚ):Logit), ((1:ℚ):Logit)] (1/2) 1) ∧
      ∀ m ∈ keptEntries (topPFilterRow [((0:ℚ):Logit), ((1:ℚ):Logit)]
          (1/2) 1),
        (∀ y ∈ keptEntries (topPFilterRow [((0:ℚ):Logit), ((1:ℚ):Logit)]
            (1/2) 1), m ≤ y) →
        rowMass [((0:ℚ):Logit), ((1:ℚ):Logit)]
            (topPFilterRow [((0:ℚ):Logit), ((1:ℚ):Logit)] (1/2) 1) -
          expw m / rowSum [((0:ℚ):Logit), ((1:ℚ):Logit)] ≤
          ((1/2 : ℚ) : ℝ)) :=
  ⟨by decide,
    C5_topp_nucleus [((0:ℚ):Logit), ((1:ℚ):Logit)] (1/2) 1 (by decide)
      (by norm_num) (by norm_num) (le_refl 1)⟩

/-- A `(batch, seq, vocab)` logits tensor. -/
abbrev Tensor3 := List (List (List ℚ))

/-- A `(batch, d)` tensor. -/
abbrev Tensor2 := List (List ℚ)

/-- `torch.split(x, sz, dim=0)`: successive chunks of `sz` rows (the last
chunk may be shorter).  `sz = 0` is rejected by torch for nonempty tensors
and is never reached by the callers here. -/
def chunkList {α : Type} : List α → ℕ → List (List α)
  | [], _ => []
  | _ :: _, 0 => []
  | a :: t, (sz + 1) =>
    (a :: t).take (sz + 1) :: chunkList ((a :: t).drop (sz + 1)) (sz + 1)
termination_by l _ => l.length
decreasing_by
  simp only [List.length_drop, List.length_cons]
  omega

/-- `uncond_logits + (cond_logits - uncond_logits) * cfg_scale`, applied
elementwise over the two half-batches (source lines 97 and 115). -/
def combineTensors (condL uncondL : Tensor3) (scale : ℚ) : Tensor3 :=
  List.zipWith
    (List.zipWith (List.zipWith (fun c u => u + (c - u) * scale)))
    condL uncondL

/-- The classifier-free-guidance step of `prefill` (source lines 92-102):
when `cfg_scale > 1.0` and the logits batch has at least two rows, split the
batch into chunks of `len // 2` rows and unpack exactly two halves to blend;
when it has fewer than two rows, print a warning (the returned `Bool`) and
keep the raw logits; an unpack of a split that does not produce exactly two
chunks raises.  When `cfg_scale ≤ 1.0` logits pass through untouched. -/
def prefillCombine (logits : Tensor3) (cfg_scale : ℚ) :
    Except String (Tensor3 × Bool) :=
  if 1 < cfg_scale then
    if 2 ≤ logits.length then
      match chunkList logits (logits.length / 2) with
      | [condL, uncondL] => .ok (combineTensors condL uncondL cfg_scale, false)
      | _ => .error "too many values to unpack"
    else .ok (logits, true)
  else .ok (logits, false)

/-- The guidance step of `decode_one_token` (source lines 108-122): like
`prefillCombine` but the blend is applied only when `cfg_flag` is true,
otherwise the conditional half is used directly. -/
def decodeCombine (logits : Tensor3) (cfg_scale : ℚ) (cfg_flag : Bool) :
    Except String (Tensor3 × Bool) :=
  if 1 < cfg_scale then
    if 2 ≤ logits.length then
      match chunkList logits (logits.length / 2) with
      | [condL, uncondL] =>
        .ok ((if cfg_flag then combineTensors condL uncondL cfg_scale
              else condL), false)
      | _ => .error "too many values to unpack"
    else .ok (logits, true)
  else .ok (logits, false)

lemma chunkList_cons {α : Type} (l : List α) (sz : ℕ) (hl : l ≠ [])
    (hsz : 0 < sz) :
    chunkList l sz = l.take sz :: chunkList (l.drop sz) sz := by
  match l, sz with
  | [], _ => exact absurd rfl hl
  | (a :: t), (k + 1) => rw [chunkList]

lemma chunkList_nil {α : Type} (sz : ℕ) :
    chunkList ([] : List α) sz = [] := by
  rw [chunkList]

/-- When `sz < len ≤ 2 * sz` the split yields exactly the two halves. -/
lemma chunkList_two {α : Type} (l : List α) (sz : ℕ)
    (hsz : 0 < sz) (hlow : sz < l.length) (hhigh : l.length ≤ 2 * sz) :
    chunkList l sz = [l.take sz, l.drop sz] := by
  have hl : l ≠ [] := by
    intro h
    rw [h] at hlow
    simp at hlow
  rw [chunkList_cons l sz hl hsz]
  have hd : l.drop sz ≠ [] := by
    intro h
    have := congrArg List.length h
    simp at this
    omega
  rw [chunkList_cons (l.drop sz) sz hd hsz]
  have hdd : (l.drop sz).drop sz = [] := by
    apply List.drop_eq_nil_of_le
    simp
    omega
  rw [hdd]
  have htk : (l.drop sz).take sz = l.drop sz := by
    apply List.take_of_length_le
    simp
    omega
  rw [htk, chunkList_nil]

/-- An odd batch of at least three rows splits into three chunks, so the
two-way unpack fails. -/
lemma chunkList_odd {α : Type} (l : List α) (hodd : l.length % 2 = 1)
    (h3 : 3 ≤ l.length) :
    chunkList l (l.length / 2) =
      [l.take (l.length / 2), (l.drop (l.length / 2)).take (l.length / 2),
        (l.drop (l.length / 2)).drop (l.length / 2)] := by
  have hsz : 0 < l.length / 2 := by omega
  have hl : l ≠ [] := by
    intro h
    rw [h] at h3
    simp at h3
  rw [chunkList_cons l _ hl hsz]
  have hd : l.drop (l.length / 2) ≠ [] := by
    intro h
    have := congrArg List.length h
    simp at this
    omega
  rw [chunkList_cons _ _ hd hsz]
  have hdd : (l.drop (l.length / 2)).drop (l.length / 2) ≠ [] := by
    intro h
    have := congrArg List.length h
    simp at this
    omega
  rw [chunkList_cons _ _ hdd hsz]
  have hddd : ((l.drop (l.length / 2)).drop (l.length / 2)).drop
      (l.length / 2) = [] := by
    apply List.drop_eq_nil_of_le
    simp
    omega
  have hddt : ((l.drop (l.length / 2)).drop (l.length / 2)).take
      (l.length / 2) = (l.drop (l.length / 2)).drop (l.length / 2) := by
    apply List.take_of_length_le
    simp
    omega
  rw [hddd, hddt, chunkList_nil]

/-- Claim C2: in the prefill and decode guidance steps, whenever
`cfg_scale > 1.0`, the batch has at least two rows (and for decode the
guidance flag is true), any successfully produced effective logits equal
`uncond + (cond - uncond) * cfg_scale` where `cond` and `uncond` are the
first and second halves of an even split of the doubled-batch logits —
and such a success forces the batch size to be even. -/
theorem C2_cfg_formula (L : Tensor3) (s : ℚ) (hs : 1 < s)
    (hb : 2 ≤ L.length) :
    (∀ E w, prefillCombine L s = .ok (E, w) →
      L.length % 2 = 0 ∧
      E = combineTensors (L.take (L.length / 2)) (L.drop (L.length / 2)) s ∧
      w = false) ∧
    (∀ E w, decodeCombine L s true = .ok (E, w) →
      L.length % 2 = 0 ∧
      E = combineTensors (L.take (L.length / 2)) (L.drop (L.length / 2)) s ∧
      w = false) := by
  by_cases hpar : L.length % 2 = 0
  · have h2 := chunkList_two L (L.length / 2) (by omega) (by omega) (by omega)
    constructor
    · intro E w h
      rw [prefillCombine, if_pos hs, if_pos hb, h2] at h
      simp only [Except.ok.injEq, Prod.mk.injEq] at h
      exact ⟨hpar, h.1.symm, h.2.symm⟩
    · intro E w h
      rw [decodeCombine, if_pos hs, if_pos hb, h2] at h
      simp only [if_pos] at h
      simp only [Except.ok.injEq, Prod.mk.injEq] at h
      exact ⟨hpar, h.1.symm, h.2.symm⟩
  · have hodd := chunkList_odd L (by omega) (by omega)
    constructor
    · intro E w h
      rw [prefillCombine, if_pos hs, if_pos hb, hodd] at h
      simp at h
    · intro E w h
      rw [decodeCombine, if_pos hs, if_pos hb, hodd] at h
      simp at h

/-- Witness for C2 on the two-row batch `[[[1]], [[2]]]` with scale 2:
the blend is `2 + (1 - 2) * 2 = 0`. -/
theorem C2_cfg_formula_witness :
    (1 < (2:ℚ) ∧ 2 ≤ ([[[(1:ℚ)]], [[2]]] : Tensor3).length) ∧
    (([[[(1:ℚ)]], [[2]]] : Tensor3).length % 2 = 0 ∧
      ([[[(0:ℚ)]]] : Tensor3) =
        combineTensors
          (([[[(1:ℚ)]], [[2]]] : Tensor3).take
            (([[[(1:ℚ)]], [[2]]] : Tensor3).length / 2))
          (([[[(1:ℚ)]], [[2]]] : Tensor3).drop
            (([[[(1:ℚ)]], [[2]]] : Tensor3).length / 2)) 2 ∧
      false = false) := by
  have hok : prefillCombine [[[(1:ℚ)]], [[2]]] 2 = .ok ([[[0]]], false) := by
    have h2 := chunkList_two [[[(1:ℚ)]], [[2]]] 1 (by norm_num) (by decide)
      (by decide)
    rw [prefillCombine, if_pos (by norm_num), if_pos (by decide)]
    show (match chunkList [[[(1:ℚ)]], [[2]]] (2 / 2) with
      | [condL, uncondL] =>
        Except.ok (combineTensors condL uncondL 2, false)
      | _ => Except.error "too many values to unpack") = _
    rw [show (2 / 2 : ℕ) = 1 from rfl, h2]
    show Except.ok (combineTensors [[[(1:ℚ)]]] [[[2]]] 2, false) = _
    norm_num [combineTensors]
  exact ⟨⟨by norm_num, by decide⟩,
    (C2_cfg_formula [[[(1:ℚ)]], [[2]]] 2 (by norm_num) (by decide)).1
      [[[0]]] false hok⟩

/-- Counterexample to claim C3 as stated: a batch of three rows under
active guidance makes the two-way unpack of the split raise an error rather
than fall back to the raw logits with a warning. -/
theorem C3_odd_batch_cex :
    prefillCombine [[[(0:ℚ)]], [[0]], [[0]]] 2 =
      .error "too many values to unpack" := by
  have hodd := chunkList_odd [[[(0:ℚ)]], [[0]], [[0]]] (by decide) (by decide)
  rw [prefillCombine, if_pos (by norm_num), if_pos (by decide), hodd]

/-- Claim C3 (amended): under active guidance the warn-and-use-raw-logits
fallback applies exactly when the logits batch has fewer than two rows;
an odd batch of three or more rows instead raises an unpack error in both
the prefill and decode guidance steps. -/
theorem C3_small_batch_fallback (L : Tensor3) (s : ℚ) (hs : 1 < s) :
    (L.length < 2 →
      prefillCombine L s = .ok (L, true) ∧
      ∀ f, decodeCombine L s f = .ok (L, true)) ∧
    (L.length % 2 = 1 → 3 ≤ L.length →
      (∃ e, prefillCombine L s = .error e) ∧
      ∀ f, ∃ e, decodeCombine L s f = .error e) := by
  constructor
  · intro hlt
    constructor
    · rw [prefillCombine, if_pos hs, if_neg (by omega)]
    · intro f
      rw [decodeCombine, if_pos hs, if_neg (by omega)]
  · intro hodd h3
    have hchunks := chunkList_odd L hodd h3
    constructor
    · refine ⟨"too many values to unpack", ?_⟩
      rw [prefillCombine, if_pos hs, if_pos (by omega), hchunks]
    · intro f
      refine ⟨"too many values to unpack", ?_⟩
      rw [decodeCombine, if_pos hs, if_pos (by omega), hchunks]

/-- Witness for the amended C3 at a single-row batch with scale 2: the
fallback returns the raw logits and signals the warning. -/
theorem C3_small_batch_fallback_witness :
    (1 < (2:ℚ)) ∧
    (prefillCombine [[[(5:ℚ)]]] 2 = .ok ([[[(5:ℚ)]]], true) ∧
      ∀ f, decodeCombine [[[(5:ℚ)]]] 2 f = .ok ([[[(5:ℚ)]]], true)) :=
  ⟨by norm_num,
    (C3_small_batch_fallback [[[(5:ℚ)]]] 2 (by norm_num)).1 (by decide)⟩

/-- One iteration of the guidance-flag update in the `decode_n_tokens` loop
(source lines 134-135): `if cfg_interval > -1 and i > cfg_interval:
cfg_flag = False`. -/
def updFlag (cfg_interval : ℤ) (i : ℕ) (flag : Bool) : Bool :=
  if -1 < cfg_interval ∧ cfg_interval < (i : ℤ) then false else flag

/-- The guidance flag passed to `decode_one_token` at decode iteration `i`:
the loop starts with `cfg_flag = True` (source line 131) and applies
`updFlag` before each call. -/
def flagAt (cfg_interval : ℤ) : ℕ → Bool
  | 0 => updFlag cfg_interval 0 true
  | i + 1 => updFlag cfg_interval (i + 1) (flagAt cfg_interval i)

/-- Claim C7: the guidance flag starts true; with `cfg_interval > -1` it is
true exactly for iteration indices `i ≤ cfg_interval` and false afterwards
(a one-way latch that never flips back); with `cfg_interval = -1` it stays
true for every step. -/
theorem C7_cfg_flag_latch :
    (∀ (c : ℤ) (i : ℕ), -1 < c → (flagAt c i = true ↔ (i : ℤ) ≤ c)) ∧
    (∀ i : ℕ, flagAt (-1) i = true) ∧
    (∀ (c : ℤ) (i : ℕ), flagAt c i = false → flagAt c (i + 1) = false) := by
  have hiff : ∀ (c : ℤ) (i : ℕ), -1 < c → (flagAt c i = true ↔ (i : ℤ) ≤ c) := by
    intro c i hc
    induction i with
    | zero =>
      simp only [flagAt, updFlag]
      constructor
      · intro h
        by_contra hlt
        push_neg at hlt
        rw [if_pos ⟨hc, by exact_mod_cast hlt⟩] at h
        exact Bool.false_ne_true h
      · intro h
        rw [if_neg]
        push_neg
        intro _
        exact_mod_cast h
    | succ j ih =>
      simp only [flagAt, updFlag]
      by_cases hgt : c < ((j : ℤ) + 1)
      · rw [if_pos ⟨hc, by exact_mod_cast hgt⟩]
        constructor
        · intro h
          exact absurd h Bool.false_ne_true
        · intro h
          exfalso
          have : ((j : ℤ) + 1) ≤ c := by exact_mod_cast h
          omega
      · rw [if_neg (by push_neg; intro _; push_neg at hgt; exact_mod_cast hgt)]
        rw [ih]
        constructor
        · intro _
          push_neg at hgt
          exact_mod_cast hgt
        · intro _
          push_neg at hgt
          have : (j : ℤ) < (j : ℤ) + 1 := by omega
          omega
  refine ⟨hiff, ?_, ?_⟩
  · intro i
    induction i with
    | zero => rfl
    | succ j ih =>
      simp only [flagAt, updFlag, ih]
      rw [if_neg]
      push_neg
      intro h
      omega
  · intro c i h
    simp only [flagAt, updFlag, h]
    split
    · rfl
    · rfl

/-- Witness for C7: with `cfg_interval = 5` the flag is true at step 5,
false at step 6, and with `cfg_interval = -1` it is true at step 9. -/
theorem C7_cfg_flag_latch_witness :
    flagAt 5 5 = true ∧ flagAt 5 6 = false ∧ flagAt (-1) 9 = true := by
  refine ⟨?_, ?_, C7_cfg_flag_latch.2.1 9⟩
  · exact (C7_cfg_flag_latch.1 5 5 (by norm_num)).2 (by norm_num)
  · have h := C7_cfg_flag_latch.1 5 6 (by norm_num)
    by_contra hne
    have : flagAt 5 6 = true := by
      cases hflag : flagAt 5 6 with
      | false => exact absurd hflag hne
      | true => rfl
    have := h.1 this
    norm_num at this

/-- Duplication of the embedding mask across the doubled batch:
`torch.cat([emb_masks, emb_masks])` (source line 179), with `B` the true
batch size. -/
def dupRows (emb : ℕ → ℕ → ℚ) (B : ℕ) : ℕ → ℕ → ℚ :=
  fun b j => if b < B then emb b j else emb (b - B) j

/-- The causal-mask adjustment of `generate` (source lines 178-184): the
conditioning columns `j < T` are multiplied by the (possibly duplicated)
embedding mask, then the whole mask is overwritten with
`mask * (1 - eye) + eye`, forcing the diagonal to 1.  Tensors are modelled
as index functions `(batch, row, column) → value`. -/
def adjustCausalMask (cm : ℕ → ℕ → ℕ → ℚ) (emb : ℕ → ℕ → ℚ) (B T : ℕ)
    (cfg : Bool) : ℕ → ℕ → ℕ → ℚ :=
  fun b i j =>
    (if j < T then cm b i j * (if cfg then dupRows emb B else emb) b j
     else cm b i j) *
      (1 - (if i = j then (1 : ℚ) else 0)) + (if i = j then 1 else 0)

/-- Claim C8: after the embedding mask is applied to the conditioning
columns of the causal mask (duplicated across the batch under guidance),
every diagonal entry of the adjusted causal mask equals 1, for every
causal mask, every user-supplied mask, every conditioning length and both
guidance settings. -/
theorem C8_causal_mask_diagonal (cm : ℕ → ℕ → ℕ → ℚ) (emb : ℕ → ℕ → ℚ)
    (B T : ℕ) (cfg : Bool) (b i : ℕ) :
    adjustCausalMask cm emb B T cfg b i i = 1 := by
  simp [adjustCausalMask]

lemma topKFilterRow_length (l : List Logit) (k mk : ℕ) :
    (topKFilterRow l k mk).length = l.length := by
  rw [topKFilterRow]
  split
  · simp
  · rfl

lemma shiftRight_length (bs : List Bool) :
    (shiftRight bs).length = bs.length := by
  cases bs with
  | nil => rfl
  | cons b t => simp [shiftRight]

lemma keepFirstTokens_length (mk : ℕ) (bs : List Bool) :
    (keepFirstTokens mk bs).length = bs.length := by
  rw [keepFirstTokens]
  split
  · simp
    omega
  · rfl

lemma removeFlags_length (s : List Logit) (p : ℚ) (mk : ℕ) :
    (removeFlags s p mk).length = s.length := by
  rw [removeFlags, shiftRight_length, keepFirstTokens_length,
    removeFlagsBase, List.length_map, cumsum_length, softmaxRow_length]

lemma topPFilterRow_length (l : List Logit) (p : ℚ) (mk : ℕ) :
    (topPFilterRow l p mk).length = l.length := by
  rw [topPFilterRow]
  split
  · rfl
  · rw [List.length_map, List.length_insertionSort, List.length_zipWith,
      removeFlags_length, List.length_map, sortDescIdx_length]
    simp

lemma top_k_top_p_filtering_length (l : List Logit) (k : ℕ) (p : ℚ)
    (mk : ℕ) :
    (top_k_top_p_filtering l k p mk).length = l.length := by
  rw [top_k_top_p_filtering, topPFilterRow_length, topKFilterRow_length]

/-- The per-row probability pipeline of `sample` (source lines 53-56):
slice already taken, divide by the floored temperature, filter when either
filter is enabled, then softmax. -/
noncomputable def sampleProbs (lastRow : List ℚ) (temperature : ℚ)
    (top_k : ℕ) (top_p : ℚ) : List ℝ :=
  softmaxRow
    (if 0 < top_k ∨ top_p < 1 then
      top_k_top_p_filtering
        (lastRow.map (fun q => ((q / max temperature (1/100000) : ℚ) : Logit)))
        top_k top_p 1
     else lastRow.map (fun q => ((q / max temperature (1/100000) : ℚ) : Logit)))

lemma sampleProbs_length (lastRow : List ℚ) (temperature : ℚ) (top_k : ℕ)
    (top_p : ℚ) :
    (sampleProbs lastRow temperature top_k top_p).length = lastRow.length := by
  rw [sampleProbs, softmaxRow_length]
  split
  · rw [top_k_top_p_filtering_length, List.length_map]
  · rw [List.length_map]

/-- `torch.topk(probs, k=1)` index: position of the first maximal
probability (source line 61). -/
noncomputable def argmaxIdx : List ℝ → ℕ
  | [] => 0
  | [_] => 0
  | x :: y :: t =>
    if (y :: t).getD (argmaxIdx (y :: t)) 0 ≤ x then 0
    else argmaxIdx (y :: t) + 1

lemma argmaxIdx_lt (l : List ℝ) (hl : l ≠ []) : argmaxIdx l < l.length := by
  match l with
  | [x] => simp [argmaxIdx]
  | x :: y :: t =>
    rw [argmaxIdx]
    have ih := argmaxIdx_lt (y :: t) (by simp)
    split
    · simp
    · simp only [List.length_cons] at ih ⊢
      omega

/-- The paired-confidence lookup of `sample` (source lines 65-76) for one
batch row: a key hit reads the probability of the mapped value, otherwise
the first mapping entry whose value equals the sampled id contributes its
key's probability, otherwise the paired confidence stays 0.  Out-of-range
probability indexing is an error (`none`). -/
def pairedLookup (index_mapping : List (ℕ × ℕ)) (probs : List ℝ)
    (selected : ℕ) : Option ℝ :=
  match index_mapping.lookup selected with
  | some v => probs[v]?
  | none =>
    match index_mapping.find? (fun kv => kv.2 == selected) with
    | some kv => probs[kv.1]?
    | none => some 0

/-- `sample(logits, ...)` for one batch row (source lines 52-80): take the
logits at the last position, scale, filter, softmax, pick the token id
(multinomial draw supplied as the oracle `draw`, or argmax when
`sample_logits` is false), read its probability as the primary confidence,
and compute the paired confidence from `index_mapping`. -/
noncomputable def sampleRow (rowLogits : List (List ℚ)) (temperature : ℚ)
    (top_k : ℕ) (top_p : ℚ) (sample_logits : Bool) (draw : ℕ)
    (index_mapping : Option (List (ℕ × ℕ))) : Option (ℕ × ℝ × ℝ) :=
  match rowLogits.getLast? with
  | none => none
  | some lastRow =>
    let probs := sampleProbs lastRow temperature top_k top_p
    let i := if sample_logits then draw else argmaxIdx probs
    match probs[i]? with
    | none => none
    | some conf =>
      match index_mapping with
      | none => some (i, conf, 0)
      | some m =>
        match pairedLookup m probs i with
        | none => none
        | some pc => some (i, conf, pc)

/-- Claim C6: for a batch row of `sample` with an `index_mapping` supplied,
a sampled id that is a key yields the probability of the mapped value as
paired confidence; otherwise the first mapping entry (in iteration order)
whose value equals the sampled id yields its key's probability; otherwise
the paired confidence is 0 and no error is raised. -/
theorem C6_paired_confidence (rowLogits : List (List ℚ)) (temperature : ℚ)
    (top_k : ℕ) (top_p : ℚ) (sl : Bool) (draw : ℕ) (m : List (ℕ × ℕ))
    (lastRow : List ℚ) (hlast : rowLogits.getLast? = some lastRow)
    (hi : (if sl then draw
           else argmaxIdx (sampleProbs lastRow temperature top_k top_p)) <
      (sampleProbs lastRow temperature top_k top_p).length) :
    (∀ v,
      m.lookup (if sl then draw
        else argmaxIdx (sampleProbs lastRow temperature top_k top_p)) =
          some v →
      v < (sampleProbs lastRow temperature top_k top_p).length →
      sampleRow rowLogits temperature top_k top_p sl draw (some m) =
        some ((if sl then draw
            else argmaxIdx (sampleProbs lastRow temperature top_k top_p)),
          (sampleProbs lastRow temperature top_k top_p).getD
            (if sl then draw
             else argmaxIdx (sampleProbs lastRow temperature top_k top_p)) 0,
          (sampleProbs lastRow temperature top_k top_p).getD v 0)) ∧
    (m.lookup (if sl then draw
        else argmaxIdx (sampleProbs lastRow temperature top_k top_p)) =
          none →
      ∀ kv,
      m.find? (fun e => e.2 ==
        (if sl then draw
         else argmaxIdx (sampleProbs lastRow temperature top_k top_p))) =
          some kv →
      kv.1 < (sampleProbs lastRow temperature top_k top_p).length →
      sampleRow rowLogits temperature top_k top_p sl draw (some m) =
        some ((if sl then draw
            else argmaxIdx (sampleProbs lastRow temperature top_k top_p)),
          (sampleProbs lastRow temperature top_k top_p).getD
            (if sl then draw
             else argmaxIdx (sampleProbs lastRow temperature top_k top_p)) 0,
          (sampleProbs lastRow temperature top_k top_p).getD kv.1 0)) ∧
    (m.lookup (if sl then draw
        else argmaxIdx (sampleProbs lastRow temperature top_k top_p)) =
          none →
      m.find? (fun e => e.2 ==
        (if sl then draw
         else argmaxIdx (sampleProbs lastRow temperature top_k top_p))) =
          none →
      sampleRow rowLogits temperature top_k top_p sl draw (some m) =
        some ((if sl then draw
            else argmaxIdx (sampleProbs lastRow temperature top_k top_p)),
          (sampleProbs lastRow temperature top_k top_p).getD
            (if sl then draw
             else argmaxIdx (sampleProbs lastRow temperature top_k top_p)) 0,
          0)) := by
  have hgeti : (sampleProbs lastRow temperature top_k top_p)[
      (if sl then draw
       else argmaxIdx (sampleProbs lastRow temperature top_k top_p))]? =
      some ((sampleProbs lastRow temperature top_k top_p).getD
        (if sl then draw
         else argmaxIdx (sampleProbs lastRow temperature top_k top_p)) 0) := by
    rw [List.getElem?_eq_getElem hi, List.getD_eq_getElem _ _ hi]
  refine ⟨?_, ?_, ?_⟩
  · intro v hv hvlt
    rw [sampleRow, hlast]
    simp only [hgeti, pairedLookup, hv,
      List.getElem?_eq_getElem hvlt, List.getD_eq_getElem _ _ hvlt]
  · intro hnone kv hkv hklt
    rw [sampleRow, hlast]
    simp only [hgeti, pairedLookup, hnone, hkv,
      List.getElem?_eq_getElem hklt, List.getD_eq_getElem _ _ hklt]
  · intro hnone hfind
    rw [sampleRow, hlast]
    simp only [hgeti, pairedLookup, hnone, hfind]

/-- Witness for C6 at the spec scenario `index_mapping = {0: 2}` with the
row `[2, 1, 0.1, 0.1]` and sampled id 0: the paired confidence is the
probability of id 2. -/
theorem C6_paired_confidence_witness :
    (([[(2:ℚ), 1, 1/10, 1/10]] : List (List ℚ)).getLast? =
      some [(2:ℚ), 1, 1/10, 1/10]) ∧
    sampleRow [[(2:ℚ), 1, 1/10, 1/10]] 1 0 1 true 0 (some [(0, 2)]) =
      some (0, (sampleProbs [(2:ℚ), 1, 1/10, 1/10] 1 0 1).getD 0 0,
        (sampleProbs [(2:ℚ), 1, 1/10, 1/10] 1 0 1).getD 2 0) := by
  have hlen := sampleProbs_length [(2:ℚ), 1, 1/10, 1/10] 1 0 1
  have hi : (if true then 0
      else argmaxIdx (sampleProbs [(2:ℚ), 1, 1/10, 1/10] 1 0 1)) <
      (sampleProbs [(2:ℚ), 1, 1/10, 1/10] 1 0 1).length := by
    rw [hlen]
    simp
  refine ⟨rfl, ?_⟩
  have h := (C6_paired_confidence [[(2:ℚ), 1, 1/10, 1/10]] 1 0 1 true 0
    [(0, 2)] [(2:ℚ), 1, 1/10, 1/10] rfl hi).1 2 (by rfl)
    (by rw [hlen]; norm_num)
  simpa using h

/-- Storage model for the frame-effect analysis of `sample` (source lines
52-55): the heap is a list of logit-row buffers indexed by id, and the
caller's logits tensor occupies the ids below `heap.length` on entry.
`logits[:, -1, :]` is a view (reads the caller's buffer without copying),
the division by the floored temperature allocates a fresh buffer, and
`top_k_top_p_filtering` mutates in place the buffer it is handed — the
fresh one.  Returns the new heap and the id the filter wrote to. -/
noncomputable def sampleFilterStage (heap : List (List Logit)) (lastId : ℕ)
    (temperature : ℚ) (top_k : ℕ) (top_p : ℚ) :
    List (List Logit) × ℕ :=
  let view := heap.getD lastId []
  let fresh := view.map
    (fun x => x.map (fun q => q / max temperature (1/100000)))
  let heap1 := heap ++ [fresh]
  let fid := heap.length
  (if 0 < top_k ∨ top_p < 1 then
     heap1.set fid (top_k_top_p_filtering (heap1.getD fid []) top_k top_p 1)
   else heap1, fid)

/-- Claim C10: `sample` never mutates the caller's logits buffers: the
in-place filter writes land on the fresh buffer produced by the
temperature division (whose id is at or above the pre-call heap size), so
every buffer that existed before the call is unchanged afterwards. -/
theorem C10_sample_frame (heap : List (List Logit)) (lastId : ℕ)
    (temperature : ℚ) (top_k : ℕ) (top_p : ℚ) (i : ℕ)
    (hi : i < heap.length) :
    ((sampleFilterStage heap lastId temperature top_k top_p).1).getD i [] =
      heap.getD i [] ∧
    heap.length ≤
      (sampleFilterStage heap lastId temperature top_k top_p).2 := by
  have happ : (heap ++ [heap.getD lastId [] |>.map
      (fun x => x.map (fun q => q / max temperature (1/100000)))]).getD
        i [] = heap.getD i [] := by
    rw [List.getD_eq_getElem?_getD, List.getElem?_append_left hi,
      ← List.getD_eq_getElem?_getD]
  constructor
  · rw [sampleFilterStage]
    split
    · rw [List.getD_eq_getElem?_getD, List.getElem?_set_ne (by omega),
        ← List.getD_eq_getElem?_getD]
      exact happ
    · exact happ
  · rw [sampleFilterStage]

/-- Witness for C10 on a one-buffer heap. -/
theorem C10_sample_frame_witness :
    (0 < ([[((1:ℚ):Logit)]] : List (List Logit)).length) ∧
    ((sampleFilterStage [[((1:ℚ):Logit)]] 0 1 1 1).1).getD 0 [] =
      ([[((1:ℚ):Logit)]] : List (List Logit)).getD 0 [] ∧
    ([[((1:ℚ):Logit)]] : List (List Logit)).length ≤
      (sampleFilterStage [[((1:ℚ):Logit)]] 0 1 1 1).2 :=
  ⟨by decide, C10_sample_frame [[((1:ℚ):Logit)]] 0 1 1 1 0 (by decide)⟩

/-- The external predictor collaborator: its declared mode tag, the class
count and unconditional embedding used to synthesize the unconditional
half, and the `forward` oracle `(tokens?, cond?, input_pos) → logits`. -/
structure Model where
  modelType : String
  numClasses : ℚ
  uncondEmb : ℚ
  forward : Option Tensor2 → Option Tensor2 → List ℕ → Tensor3

/-- `sample` over a whole batch (source lines 52-80): each row is handled
independently; the multinomial draw for row `b` is the oracle `draw b`.
`none` models an indexing error in any row. -/
noncomputable def sampleRows (temperature : ℚ) (top_k : ℕ) (top_p : ℚ)
    (sample_logits : Bool) (index_mapping : Option (List (ℕ × ℕ)))
    (draw : ℕ → ℕ) : List (List (List ℚ)) → ℕ →
    Option (List ℕ × List (ℝ × ℝ))
  | [], _ => some ([], [])
  | row :: rest, b =>
    match sampleRow row temperature top_k top_p sample_logits (draw b)
        index_mapping with
    | none => none
    | some (i, c, pc) =>
      match sampleRows temperature top_k top_p sample_logits index_mapping
          draw rest (b + 1) with
      | none => none
      | some (is, cs) => some (i :: is, (c, pc) :: cs)

/-- `prefill` (source lines 91-103): one forward call over the whole
conditioning span, the guidance combination, then `sample`. -/
noncomputable def prefill (M : Model) (cond_idx : Tensor2)
    (input_pos : List ℕ) (cfg_scale : ℚ)
    (index_mapping : Option (List (ℕ × ℕ))) (temperature : ℚ) (top_k : ℕ)
    (top_p : ℚ) (sample_logits : Bool) (draw : ℕ → ℕ) :
    Except String ((List ℕ × List (ℝ × ℝ)) × Bool) :=
  match prefillCombine (M.forward none (some cond_idx) input_pos)
      cfg_scale with
  | .error e => .error e
  | .ok (eff, warned) =>
    match sampleRows temperature top_k top_p sample_logits index_mapping
        draw eff 0 with
    | some r => .ok (r, warned)
    | none => .error "index out of range"

/-- `decode_one_token` (source lines 106-123): assert a single scalar
position, duplicate the current token across the doubled batch under
guidance, combine, then `sample`. -/
noncomputable def decodeOneToken (M : Model) (x : Tensor2)
    (input_pos : List ℕ) (cfg_scale : ℚ) (cfg_flag : Bool)
    (index_mapping : Option (List (ℕ × ℕ))) (temperature : ℚ) (top_k : ℕ)
    (top_p : ℚ) (sample_logits : Bool) (draw : ℕ → ℕ) :
    Except String ((List ℕ × List (ℝ × ℝ)) × Bool) :=
  if input_pos.length ≠ 1 then .error "assert input_pos" else
    match decodeCombine
        (if 1 < cfg_scale then M.forward (some (x ++ x)) none input_pos
         else M.forward (some x) none input_pos) cfg_scale cfg_flag with
    | .error e => .error e
    | .ok (eff, warned) =>
      match sampleRows temperature top_k top_p sample_logits index_mapping
          draw eff 0 with
      | some r => .ok (r, warned)
      | none => .error "index out of range"

/-- The loop body of `decode_n_tokens` (source lines 126-144): iteration
index `i`, remaining count, current token column and position cursor; the
guidance flag at step `i` is the latch value `flagAt cfg_interval i`, the
position advances by one each step, and each new token column is collected.
The draw oracle for decode step `i` is `draw (i + 1)` (`draw 0` is the
prefill call's). -/
noncomputable def decodeLoop (M : Model) (cfg_scale : ℚ) (cfg_interval : ℤ)
    (index_mapping : Option (List (ℕ × ℕ))) (temperature : ℚ) (top_k : ℕ)
    (top_p : ℚ) (sample_logits : Bool) (draw : ℕ → ℕ → ℕ) :
    ℕ → ℕ → Tensor2 → ℕ →
    Except String (List (List ℕ) × List (List (ℝ × ℝ)))
  | _, 0, _, _ => .ok ([], [])
  | i, r + 1, cur, pos =>
    match decodeOneToken M cur [pos] cfg_scale (flagAt cfg_interval i)
        index_mapping temperature top_k top_p sample_logits
        (draw (i + 1)) with
    | .error e => .error e
    | .ok ((toks, confs), _w) =>
      match decodeLoop M cfg_scale cfg_interval index_mapping temperature
          top_k top_p sample_logits draw (i + 1) r
          (toks.map (fun (t : ℕ) => [(t : ℚ)])) (pos + 1) with
      | .error e => .error e
      | .ok (ts, cs) => .ok (toks :: ts, confs :: cs)

/-- `torch.cat(generated_tokens, dim=1)` (source line 196): concatenating
an empty list of tensors raises; otherwise the token columns are joined
into one `(batch, count)` block. -/
def catCols (cols : List (List ℕ)) (B : ℕ) :
    Except String (List (List ℕ)) :=
  if cols = [] then .error "cat expected a non-empty list of Tensors"
  else .ok ((List.range B).map (fun b => cols.map (fun c => c.getD b 0)))

/-- A column write `buf[:, j] = vals` on a `(batch, width)` buffer. -/
def writeCol {α : Type} (buf : List (List α)) (j : ℕ) (vals : List α) :
    List (List α) :=
  List.zipWith (fun row v => row.set j v) buf vals

/-- One decode-confidence write-back `confidences[:, T+i+1] = conf`
(source line 199).  The value `conf` carries shape `(batch, 1, 2)` — the
`1` comes from the per-step `num_samples=1` dimension — while the
destination slice, indexed by the scalar `T+i+1`, has shape `(batch, 2)`.
Tensor setitem strips only leading singleton dimensions of the value, so
the assignment succeeds exactly when `batch = 1` (the value collapses to
`(2,)` and broadcasts over the destination rows) and raises an expand
error for `batch ≥ 2`.  The column is the list of per-row pairs, so its
length is the value's batch dimension. -/
def writeConfCol (buf : List (List (ℝ × ℝ))) (j : ℕ)
    (col : List (ℝ × ℝ)) : Except String (List (List (ℝ × ℝ))) :=
  if col.length = 1 then
    .ok (buf.map (fun row => row.set j (col.headD ((0:ℝ), (0:ℝ)))))
  else
    .error "expand: number of sizes provided must be >= dims of the tensor"

/-- The confidence write-back loop `for i, conf in enumerate(...):
confidences[:, T+i+1] = conf` (source lines 198-199). -/
def writeConfCols : List (List (ℝ × ℝ)) → ℕ → List (List (ℝ × ℝ)) →
    Except String (List (List (ℝ × ℝ)))
  | buf, _, [] => .ok buf
  | buf, start, c :: cs =>
    match writeConfCol buf start c with
    | .error e => .error e
    | .ok buf2 => writeConfCols buf2 (start + 1) cs

/-- Observable state-initialization effects of `generate`, in program
order: the `setup_caches` call (source line 173), the causal-mask write
(lines 179-184) and the two output-buffer allocations (lines 186-187). -/
inductive GenEffect
  | setupCaches (maxBatch maxSeq : ℕ)
  | maskWrite
  | allocSeq (b tnew : ℕ)
  | allocConf (b tnew : ℕ)

/-- The tail of `generate` after state initialization (source lines
186-200): prefill writes its token/confidence column at buffer index `T`
(an exact-shape `(batch, 1, 2)` assignment, line 192), the decode loop
produces `maxNewTokens - 1` further columns, the token block is written via
`torch.cat` (line 196), and the decode confidences are written back one
column at a time (lines 198-199, which raises for `batch ≥ 2`, see
`writeConfCol`); the buffers are returned sliced from `T` on. -/
noncomputable def generateTail (M : Model) (cond_combined : Tensor2)
    (B T N : ℕ) (cfg_scale : ℚ) (cfg_interval : ℤ)
    (index_mapping : Option (List (ℕ × ℕ))) (temperature : ℚ) (top_k : ℕ)
    (top_p : ℚ) (sample_logits : Bool) (draw : ℕ → ℕ → ℕ) :
    Except String (List (List ℕ) × List (List (ℝ × ℝ))) :=
  match prefill M cond_combined (List.range T) cfg_scale index_mapping
      temperature top_k top_p sample_logits (draw 0) with
  | .error e => .error e
  | .ok ((toks, confs), _w) =>
    match decodeLoop M cfg_scale cfg_interval index_mapping temperature
        top_k top_p sample_logits draw 0 (N - 1)
        (toks.map (fun (t : ℕ) => [(t : ℚ)])) T with
    | .error e => .error e
    | .ok (gts, gcs) =>
      match catCols gts B with
      | .error e => .error e
      | .ok tail =>
        match writeConfCols
            (writeCol
              (List.replicate B (List.replicate (T + N) ((0:ℝ), (0:ℝ))))
              T confs) (T + 1) gcs with
        | .error e => .error e
        | .ok conf2 =>
          .ok
            ((List.zipWith (fun row nb => row.take (T + 1) ++ nb)
                (writeCol (List.replicate B (List.replicate (T + N) 0)) T
                  toks) tail).map (fun r => r.drop T),
              conf2.map (fun r => r.drop T))

/-- State initialization and buffer phase of `generate` (source lines
166-200): compute the doubled batch size, call `setup_caches`, check and
apply the embedding mask (its shape mismatch is an assertion failure),
allocate the output buffers and run the generation tail.  The first
component records which state-touching effects occurred. -/
noncomputable def generateCore (M : Model) (cond cond_combined : Tensor2)
    (T maxNewTokens : ℕ) (emb_masks : Option Tensor2) (cfg_scale : ℚ)
    (cfg_interval : ℤ) (index_mapping : Option (List (ℕ × ℕ)))
    (temperature : ℚ) (top_k : ℕ) (top_p : ℚ) (sample_logits : Bool)
    (draw : ℕ → ℕ → ℕ) :
    List GenEffect × Except String (List (List ℕ) × List (List (ℝ × ℝ))) :=
  let B := cond.length
  let TNew := T + maxNewTokens
  let bsCfg := if 1 < cfg_scale then B * 2 else B
  match emb_masks with
  | some e =>
    if e.length = B ∧ ∀ r ∈ e, r.length = T then
      ([GenEffect.setupCaches bsCfg TNew, GenEffect.maskWrite,
          GenEffect.allocSeq B TNew, GenEffect.allocConf B TNew],
        generateTail M cond_combined B T maxNewTokens cfg_scale cfg_interval
          index_mapping temperature top_k top_p sample_logits draw)
    else ([GenEffect.setupCaches bsCfg TNew], .error "assert emb_masks")
  | none =>
    ([GenEffect.setupCaches bsCfg TNew, GenEffect.allocSeq B TNew,
        GenEffect.allocConf B TNew],
      generateTail M cond_combined B T maxNewTokens cfg_scale cfg_interval
        index_mapping temperature top_k top_p sample_logits draw)

/-- `generate` (source lines 147-200): dispatch on the declared model mode
— class-conditional (`T = 1`, null class for the unconditional half) or
text-conditional (`T = cond.shape[1]`, learned unconditional embedding) —
an unknown mode raises before anything else happens; then run the core. -/
noncomputable def generate (M : Model) (cond : Tensor2) (maxNewTokens : ℕ)
    (emb_masks : Option Tensor2) (cfg_scale : ℚ) (cfg_interval : ℤ)
    (index_mapping : Option (List (ℕ × ℕ))) (temperature : ℚ) (top_k : ℕ)
    (top_p : ℚ) (sample_logits : Bool) (draw : ℕ → ℕ → ℕ) :
    List GenEffect × Except String (List (List ℕ) × List (List (ℝ × ℝ))) :=
  if M.modelType = "c2i" then
    generateCore M cond
      (if 1 < cfg_scale then
        cond ++ cond.map (fun row => row.map (fun _ => M.numClasses))
       else cond)
      1 maxNewTokens emb_masks cfg_scale cfg_interval index_mapping
      temperature top_k top_p sample_logits draw
  else if M.modelType = "t2i" then
    generateCore M cond
      (if 1 < cfg_scale then
        cond ++ cond.map (fun row => row.map (fun _ => M.uncondEmb))
       else cond)
      (cond.headD []).length maxNewTokens emb_masks cfg_scale cfg_interval
      index_mapping temperature top_k top_p sample_logits draw
  else ([], .error "please check model type")

/-- Claim C9: for every model whose declared mode is neither `c2i` nor
`t2i`, `generate` fails with the configuration error and the effect trace
is empty: no `setup_caches` call, no causal-mask write and no output-buffer
allocation happens on this path. -/
theorem C9_unknown_mode_fatal (M : Model) (cond : Tensor2) (N : ℕ)
    (emb : Option Tensor2) (s : ℚ) (ci : ℤ) (im : Option (List (ℕ × ℕ)))
    (t : ℚ) (k : ℕ) (p : ℚ) (sl : Bool) (draw : ℕ → ℕ → ℕ)
    (h1 : M.modelType ≠ "c2i") (h2 : M.modelType ≠ "t2i") :
    generate M cond N emb s ci im t k p sl draw =
      ([], .error "please check model type") := by
  rw [generate, if_neg h1, if_neg h2]

/-- A model with an unsupported mode tag, for the C9 witness. -/
noncomputable def probeModel : Model :=
  { modelType := "xyz", numClasses := 0, uncondEmb := 0,
    forward := fun _ _ _ => [] }

/-- Witness for C9 at a concrete model with mode tag `xyz`. -/
theorem C9_unknown_mode_fatal_witness :
    (probeModel.modelType ≠ "c2i" ∧ probeModel.modelType ≠ "t2i") ∧
    generate probeModel [[0]] 3 none 1 (-1) none 1 0 1 true
        (fun _ _ => 0) =
      ([], .error "please check model type") :=
  ⟨⟨by decide, by decide⟩,
    C9_unknown_mode_fatal probeModel [[0]] 3 none 1 (-1) none 1 0 1 true
      (fun _ _ => 0) (by decide) (by decide)⟩

/-- Shape discipline for a `(batch, seq, vocab)` logits tensor: every batch
row has at least one position and every position has `V` vocabulary
entries. -/
def wfLogits (L : Tensor3) (V : ℕ) : Prop :=
  ∀ r ∈ L, r ≠ [] ∧ ∀ ir ∈ r, ir.length = V

lemma mem_zipWith {α β γ : Type} (f : α → β → γ) (as : List α)
    (bs : List β) (x : γ) (hx : x ∈ List.zipWith f as bs) :
    ∃ a ∈ as, ∃ b ∈ bs, x = f a b := by
  induction as generalizing bs with
  | nil => simp at hx
  | cons a t ih =>
    cases bs with
    | nil => simp at hx
    | cons b bt =>
      rw [List.zipWith_cons_cons] at hx
      rcases List.mem_cons.1 hx with rfl | hmem
      · exact ⟨a, List.mem_cons_self _ _, b, List.mem_cons_self _ _, rfl⟩
      · rcases ih bt hmem with ⟨a1, ha1, b1, hb1, rfl⟩
        exact ⟨a1, List.mem_cons_of_mem _ ha1, b1,
          List.mem_cons_of_mem _ hb1, rfl⟩

lemma wfLogits_sublistD (L : Tensor3) (V : ℕ) (hwf : wfLogits L V)
    (L2 : Tensor3) (hsub : ∀ r ∈ L2, r ∈ L) : wfLogits L2 V :=
  fun r hr => hwf r (hsub r hr)

lemma combineTensors_wf (c u : Tensor3) (V : ℕ) (s : ℚ)
    (hc : wfLogits c V) (hu : wfLogits u V) :
    wfLogits (combineTensors c u s) V ∧
    (combineTensors c u s).length = min c.length u.length := by
  constructor
  · intro r hr
    rcases mem_zipWith _ c u r hr with ⟨rc, hrc, ru, hru, rfl⟩
    obtain ⟨hcne, hcv⟩ := hc rc hrc
    obtain ⟨hune, huv⟩ := hu ru hru
    constructor
    · intro hnil
      have := congrArg List.length hnil
      rw [List.length_zipWith] at this
      simp at this
      rcases this with h | h
      · exact hcne h
      · exact hune h
    · intro ir hir
      rcases mem_zipWith _ rc ru ir hir with ⟨ic, hic, iu, hiu, rfl⟩
      rw [List.length_zipWith, hcv ic hic, huv iu hiu, min_self]
  · rw [combineTensors, List.length_zipWith]

lemma prefillCombine_shape (L : Tensor3) (s : ℚ) (V B : ℕ)
    (hwf : wfLogits L V) (hB : 0 < B)
    (hL : L.length = if 1 < s then 2 * B else B) :
    ∃ E w, prefillCombine L s = .ok (E, w) ∧ E.length = B ∧
      wfLogits E V := by
  by_cases hs : 1 < s
  · rw [if_pos hs] at hL
    have h2 := chunkList_two L B (by omega) (by omega) (by omega)
    have hsz : L.length / 2 = B := by omega
    refine ⟨combineTensors (L.take B) (L.drop B) s, false, ?_, ?_, ?_⟩
    · rw [prefillCombine, if_pos hs, if_pos (by omega), hsz, h2]
    · rcases combineTensors_wf (L.take B) (L.drop B) V s
        (wfLogits_sublistD L V hwf _ (fun r hr => List.mem_of_mem_take hr))
        (wfLogits_sublistD L V hwf _ (fun r hr => List.mem_of_mem_drop hr))
        with ⟨_, hlen⟩
      rw [hlen, List.length_take, List.length_drop, hL]
      omega
    · rcases combineTensors_wf (L.take B) (L.drop B) V s
        (wfLogits_sublistD L V hwf _ (fun r hr => List.mem_of_mem_take hr))
        (wfLogits_sublistD L V hwf _ (fun r hr => List.mem_of_mem_drop hr))
        with ⟨hwfc, _⟩
      exact hwfc
  · rw [if_neg hs] at hL
    refine ⟨L, false, ?_, hL, hwf⟩
    rw [prefillCombine, if_neg hs]

lemma decodeCombine_shape (L : Tensor3) (s : ℚ) (f : Bool) (V B : ℕ)
    (hwf : wfLogits L V) (hB : 0 < B)
    (hL : L.length = if 1 < s then 2 * B else B) :
    ∃ E w, decodeCombine L s f = .ok (E, w) ∧ E.length = B ∧
      wfLogits E V := by
  by_cases hs : 1 < s
  · rw [if_pos hs] at hL
    have h2 := chunkList_two L B (by omega) (by omega) (by omega)
    have hsz : L.length / 2 = B := by omega
    rcases combineTensors_wf (L.take B) (L.drop B) V s
      (wfLogits_sublistD L V hwf _ (fun r hr => List.mem_of_mem_take hr))
      (wfLogits_sublistD L V hwf _ (fun r hr => List.mem_of_mem_drop hr))
      with ⟨hwfc, hlen⟩
    refine ⟨(if f then combineTensors (L.take B) (L.drop B) s
      else L.take B), false, ?_, ?_, ?_⟩
    · rw [decodeCombine, if_pos hs, if_pos (by omega), hsz, h2]
    · cases f with
      | true =>
        simp only [if_true]
        rw [hlen, List.length_take, List.length_drop, hL]
        omega
      | false =>
        simp only [Bool.false_eq_true, if_false]
        rw [List.length_take, hL]
        omega
    · cases f with
      | true => simpa using hwfc
      | false =>
        simp only [Bool.false_eq_true, if_false]
        exact wfLogits_sublistD L V hwf _
          (fun r hr => List.mem_of_mem_take hr)
  · rw [if_neg hs] at hL
    refine ⟨L, false, ?_, hL, hwf⟩
    rw [decodeCombine, if_neg hs]

lemma sampleRow_some (row : List (List ℚ)) (V : ℕ) (temperature : ℚ)
    (top_k : ℕ) (top_p : ℚ) (sl : Bool) (draw : ℕ)
    (im : Option (List (ℕ × ℕ)))
    (hne : row ≠ []) (hv : ∀ ir ∈ row, ir.length = V) (hV : 0 < V)
    (hdraw : sl = true → draw < V)
    (him : ∀ m, im = some m → ∀ kv ∈ m, kv.1 < V ∧ kv.2 < V) :
    ∃ out, sampleRow row temperature top_k top_p sl draw im = some out := by
  obtain ⟨lastRow, hlast⟩ : ∃ a, row.getLast? = some a := by
    cases hl : row.getLast? with
    | none => exact absurd (List.getLast?_eq_none_iff.1 hl) hne
    | some a => exact ⟨a, rfl⟩
  have hlmem : lastRow ∈ row :=
    List.mem_of_mem_getLast? (by rw [hlast]; exact rfl)
  have hplen : (sampleProbs lastRow temperature top_k top_p).length = V := by
    rw [sampleProbs_length]
    exact hv lastRow hlmem
  have hi : (if sl then draw
      else argmaxIdx (sampleProbs lastRow temperature top_k top_p)) < V := by
    cases sl with
    | true => simpa using hdraw rfl
    | false =>
      simp only [Bool.false_eq_true, if_false]
      have := argmaxIdx_lt (sampleProbs lastRow temperature top_k top_p)
        (by intro h; rw [h] at hplen; simp at hplen; omega)
      omega
  have hgeti : ∃ c, (sampleProbs lastRow temperature top_k top_p)[
      (if sl then draw
       else argmaxIdx (sampleProbs lastRow temperature top_k top_p))]? =
      some c :=
    ⟨_, List.getElem?_eq_getElem (by omega)⟩
  obtain ⟨c, hc⟩ := hgeti
  rw [sampleRow, hlast]
  simp only [hc]
  cases im with
  | none => exact ⟨_, rfl⟩
  | some m =>
    have hpl : ∃ pc, pairedLookup m
        (sampleProbs lastRow temperature top_k top_p)
        (if sl then draw
         else argmaxIdx (sampleProbs lastRow temperature top_k top_p)) =
        some pc := by
      rw [pairedLookup]
      cases hlk : m.lookup (if sl then draw
          else argmaxIdx (sampleProbs lastRow temperature top_k top_p)) with
      | some v =>
        have hmem : ((if sl then draw
            else argmaxIdx (sampleProbs lastRow temperature top_k top_p)),
            v) ∈ m := by
          rcases List.lookup_eq_some_iff.1 hlk with ⟨l1, l2, rfl, _⟩
          simp
        have hvV : v < V := (him m rfl _ hmem).2
        exact ⟨_, List.getElem?_eq_getElem (by omega)⟩
      | none =>
        cases hf : m.find? (fun kv => kv.2 ==
            (if sl then draw
             else argmaxIdx
               (sampleProbs lastRow temperature top_k top_p))) with
        | some kv =>
          have hmem : kv ∈ m := List.mem_of_find?_eq_some hf
          have hkV : kv.1 < V := (him m rfl _ hmem).1
          exact ⟨_, List.getElem?_eq_getElem (by omega)⟩
        | none => exact ⟨0, rfl⟩
    obtain ⟨pc, hpc⟩ := hpl
    simp only [hpc]
    exact ⟨_, rfl⟩

lemma sampleRows_some (rows : List (List (List ℚ))) (V : ℕ)
    (temperature : ℚ) (top_k : ℕ) (top_p : ℚ) (sl : Bool)
    (im : Option (List (ℕ × ℕ))) (draw : ℕ → ℕ)
    (hwf : wfLogits rows V) (hV : 0 < V)
    (hdraw : sl = true → ∀ b, draw b < V)
    (him : ∀ m, im = some m → ∀ kv ∈ m, kv.1 < V ∧ kv.2 < V) :
    ∀ b0, ∃ toks confs,
      sampleRows temperature top_k top_p sl im draw rows b0 =
        some (toks, confs) ∧
      toks.length = rows.length ∧ confs.length = rows.length := by
  induction rows with
  | nil => intro b0; exact ⟨[], [], rfl, rfl, rfl⟩
  | cons row rest ih =>
    intro b0
    obtain ⟨hne, hv⟩ := hwf row (List.mem_cons_self _ _)
    obtain ⟨out, hout⟩ := sampleRow_some row V temperature top_k top_p sl
      (draw b0) im hne hv hV (fun h => hdraw h b0) him
    obtain ⟨toks, confs, hrest, hlt, hlc⟩ :=
      ih (fun r hr => hwf r (List.mem_cons_of_mem _ hr)) (b0 + 1)
    refine ⟨out.1 :: toks, (out.2.1, out.2.2) :: confs, ?_, ?_, ?_⟩
    · rw [sampleRows, hout, hrest]
    · simp [hlt]
    · simp [hlc]

lemma prefill_ok (M : Model) (cc : Tensor2) (pos : List ℕ) (s : ℚ)
    (V B : ℕ) (im : Option (List (ℕ × ℕ))) (temperature : ℚ) (top_k : ℕ)
    (top_p : ℚ) (sl : Bool) (draw : ℕ → ℕ)
    (hfwd : wfLogits (M.forward none (some cc) pos) V)
    (hfl : (M.forward none (some cc) pos).length =
      (if 1 < s then 2 * B else B))
    (hB : 0 < B) (hV : 0 < V)
    (hdraw : sl = true → ∀ b, draw b < V)
    (him : ∀ m, im = some m → ∀ kv ∈ m, kv.1 < V ∧ kv.2 < V) :
    ∃ toks confs w,
      prefill M cc pos s im temperature top_k top_p sl draw =
        .ok ((toks, confs), w) ∧
      toks.length = B ∧ confs.length = B := by
  obtain ⟨E, w, hpc, hEl, hEwf⟩ :=
    prefillCombine_shape (M.forward none (some cc) pos) s V B hfwd hB hfl
  obtain ⟨toks, confs, hsr, hlt, hlc⟩ :=
    sampleRows_some E V temperature top_k top_p sl im draw hEwf hV hdraw
      him 0
  refine ⟨toks, confs, w, ?_, by omega, by omega⟩
  rw [prefill]
  simp only [hpc, hsr]

lemma decodeOneToken_ok (M : Model) (x : Tensor2) (pos : ℕ) (s : ℚ)
    (f : Bool) (V B : ℕ) (im : Option (List (ℕ × ℕ))) (temperature : ℚ)
    (top_k : ℕ) (top_p : ℚ) (sl : Bool) (draw : ℕ → ℕ)
    (hfwdD : ∀ (t : Tensor2) (ps : List ℕ),
      wfLogits (M.forward (some t) none ps) V ∧
      (M.forward (some t) none ps).length = t.length)
    (hx : x.length = B) (hB : 0 < B) (hV : 0 < V)
    (hdraw : sl = true → ∀ b, draw b < V)
    (him : ∀ m, im = some m → ∀ kv ∈ m, kv.1 < V ∧ kv.2 < V) :
    ∃ toks confs w,
      decodeOneToken M x [pos] s f im temperature top_k top_p sl draw =
        .ok ((toks, confs), w) ∧
      toks.length = B ∧ confs.length = B := by
  have hlog : wfLogits
      (if 1 < s then M.forward (some (x ++ x)) none [pos]
       else M.forward (some x) none [pos]) V ∧
      (if 1 < s then M.forward (some (x ++ x)) none [pos]
       else M.forward (some x) none [pos]).length =
        (if 1 < s then 2 * B else B) := by
    by_cases hs : 1 < s
    · simp only [if_pos hs]
      refine ⟨(hfwdD (x ++ x) [pos]).1, ?_⟩
      rw [(hfwdD (x ++ x) [pos]).2, List.length_append]
      omega
    · simp only [if_neg hs]
      exact ⟨(hfwdD x [pos]).1, by rw [(hfwdD x [pos]).2, hx]⟩
  obtain ⟨E, w, hdc, hEl, hEwf⟩ :=
    decodeCombine_shape _ s f V B hlog.1 hB hlog.2
  obtain ⟨toks, confs, hsr, hlt, hlc⟩ :=
    sampleRows_some E V temperature top_k top_p sl im draw hEwf hV hdraw
      him 0
  refine ⟨toks, confs, w, ?_, by omega, by omega⟩
  rw [decodeOneToken, if_neg (by simp)]
  simp only [hdc, hsr]

lemma decodeLoop_ok (M : Model) (s : ℚ) (ci : ℤ)
    (im : Option (List (ℕ × ℕ))) (temperature : ℚ) (top_k : ℕ) (top_p : ℚ)
    (sl : Bool) (draw : ℕ → ℕ → ℕ) (V B : ℕ)
    (hfwdD : ∀ (t : Tensor2) (ps : List ℕ),
      wfLogits (M.forward (some t) none ps) V ∧
      (M.forward (some t) none ps).length = t.length)
    (hB : 0 < B) (hV : 0 < V)
    (hdraw : sl = true → ∀ st b, draw st b < V)
    (him : ∀ m, im = some m → ∀ kv ∈ m, kv.1 < V ∧ kv.2 < V) :
    ∀ (r i pos : ℕ) (cur : Tensor2), cur.length = B →
      ∃ ts cs,
        decodeLoop M s ci im temperature top_k top_p sl draw i r cur pos =
          .ok (ts, cs) ∧
        ts.length = r ∧ cs.length = r ∧
        (∀ c ∈ ts, c.length = B) ∧ (∀ c ∈ cs, c.length = B) := by
  intro r
  induction r with
  | zero =>
    intro i pos cur hcur
    exact ⟨[], [], rfl, rfl, rfl, by simp, by simp⟩
  | succ n ih =>
    intro i pos cur hcur
    obtain ⟨toks, confs, w, hstep, hlt, hlc⟩ :=
      decodeOneToken_ok M cur pos s (flagAt ci i) V B im temperature top_k
        top_p sl (draw (i + 1)) hfwdD hcur hB hV
        (fun h => hdraw h (i + 1)) him
    have hcurlen : (toks.map (fun (t : ℕ) => [(t : ℚ)])).length = B := by
      rw [List.length_map]
      exact hlt
    obtain ⟨ts, cs, hrest, hlts, hlcs, hallt, hallc⟩ :=
      ih (i + 1) (pos + 1) (toks.map (fun (t : ℕ) => [(t : ℚ)])) hcurlen
    refine ⟨toks :: ts, confs :: cs, ?_, by simp [hlts], by simp [hlcs],
      ?_, ?_⟩
    · rw [decodeLoop]
      simp only [hstep, hrest]
    · intro c hc
      rcases List.mem_cons.1 hc with rfl | hmem
      · exact hlt
      · exact hallt c hmem
    · intro c hc
      rcases List.mem_cons.1 hc with rfl | hmem
      · exact hlc
      · exact hallc c hmem

lemma catCols_ok (cols : List (List ℕ)) (B : ℕ) (hne : cols ≠ []) :
    ∃ t, catCols cols B = .ok t ∧ t.length = B ∧
      ∀ r ∈ t, r.length = cols.length := by
  rw [catCols, if_neg hne]
  refine ⟨_, rfl, by simp, ?_⟩
  intro r hr
  rcases List.mem_map.1 hr with ⟨b, _, rfl⟩
  simp

lemma writeCol_shape {α : Type} (buf : List (List α)) (j : ℕ)
    (vals : List α) (w : ℕ) (hl : vals.length = buf.length)
    (hw : ∀ r ∈ buf, r.length = w) :
    (writeCol buf j vals).length = buf.length ∧
    ∀ r ∈ writeCol buf j vals, r.length = w := by
  constructor
  · rw [writeCol, List.length_zipWith]
    omega
  · intro r hr
    rcases mem_zipWith _ buf vals r hr with ⟨row, hrow, v, _, rfl⟩
    rw [List.length_set]
    exact hw row hrow

lemma writeConfCol_ok (buf : List (List (ℝ × ℝ))) (j : ℕ)
    (col : List (ℝ × ℝ)) (w : ℕ) (hcol : col.length = 1)
    (hw : ∀ r ∈ buf, r.length = w) :
    ∃ buf2, writeConfCol buf j col = .ok buf2 ∧
      buf2.length = buf.length ∧ ∀ r ∈ buf2, r.length = w := by
  rw [writeConfCol, if_pos hcol]
  refine ⟨_, rfl, by simp, ?_⟩
  intro r hr
  rcases List.mem_map.1 hr with ⟨row, hrow, rfl⟩
  rw [List.length_set]
  exact hw row hrow

lemma writeConfCols_ok (w B : ℕ) :
    ∀ (cols : List (List (ℝ × ℝ))) (buf : List (List (ℝ × ℝ)))
      (start : ℕ),
      buf.length = B → (∀ r ∈ buf, r.length = w) →
      (∀ c ∈ cols, c.length = 1) →
      ∃ buf2, writeConfCols buf start cols = .ok buf2 ∧
        buf2.length = B ∧ ∀ r ∈ buf2, r.length = w := by
  intro cols
  induction cols with
  | nil =>
    intro buf start hbl hbw _
    exact ⟨buf, rfl, hbl, hbw⟩
  | cons c cs ih =>
    intro buf start hbl hbw hcols
    obtain ⟨buf2, hok, hl2, hw2⟩ := writeConfCol_ok buf start c w
      (hcols c (List.mem_cons_self _ _)) hbw
    obtain ⟨buf3, hok3, hl3, hw3⟩ := ih buf2 (start + 1) (by omega) hw2
      (fun d hd => hcols d (List.mem_cons_of_mem _ hd))
    refine ⟨buf3, ?_, hl3, hw3⟩
    rw [writeConfCols]
    simp only [hok]
    exact hok3

lemma generateTail_ok (M : Model) (cc : Tensor2) (B T N : ℕ) (s : ℚ)
    (ci : ℤ) (im : Option (List (ℕ × ℕ))) (temperature : ℚ) (top_k : ℕ)
    (top_p : ℚ) (sl : Bool) (draw : ℕ → ℕ → ℕ) (V : ℕ)
    (hfwdP : wfLogits (M.forward none (some cc) (List.range T)) V)
    (hfwdPl : (M.forward none (some cc) (List.range T)).length =
      (if 1 < s then 2 * B else B))
    (hfwdD : ∀ (t : Tensor2) (ps : List ℕ),
      wfLogits (M.forward (some t) none ps) V ∧
      (M.forward (some t) none ps).length = t.length)
    (hB1 : B = 1) (hV : 0 < V) (hN : 2 ≤ N)
    (hdraw : sl = true → ∀ st b, draw st b < V)
    (him : ∀ m, im = some m → ∀ kv ∈ m, kv.1 < V ∧ kv.2 < V) :
    ∃ toks confs,
      generateTail M cc B T N s ci im temperature top_k top_p sl draw =
        .ok (toks, confs) ∧
      toks.length = B ∧ (∀ r ∈ toks, r.length = N) ∧
      confs.length = B ∧ (∀ r ∈ confs, r.length = N) := by
  have hB : 0 < B := by omega
  obtain ⟨ptoks, pconfs, w, hpre, hplt, hplc⟩ :=
    prefill_ok M cc (List.range T) s V B im temperature top_k top_p sl
      (draw 0) hfwdP hfwdPl hB hV (fun h => hdraw h 0) him
  obtain ⟨gts, gcs, hloop, hgtl, hgcl, hgtall, hgcall⟩ :=
    decodeLoop_ok M s ci im temperature top_k top_p sl draw V B hfwdD hB
      hV hdraw him (N - 1) 0 T (ptoks.map (fun (t : ℕ) => [(t : ℚ)]))
      (by rw [List.length_map]; exact hplt)
  obtain ⟨tail, hcat, htl, htall⟩ :=
    catCols_ok gts B (by
      intro h
      rw [h] at hgtl
      simp at hgtl
      omega)
  have hseq1 := writeCol_shape
    (List.replicate B (List.replicate (T + N) (0 : ℕ))) T ptoks (T + N)
    (by simpa using hplt) (by
      intro r hr
      rw [List.eq_of_mem_replicate hr]
      simp)
  have hconf1 := writeCol_shape
    (List.replicate B (List.replicate (T + N) ((0:ℝ), (0:ℝ)))) T pconfs
    (T + N) (by simpa using hplc) (by
      intro r hr
      rw [List.eq_of_mem_replicate hr]
      simp)
  obtain ⟨conf2, hwc, hconf2l, hconf2w⟩ := writeConfCols_ok (T + N) B gcs
    (writeCol (List.replicate B (List.replicate (T + N) ((0:ℝ), (0:ℝ))))
      T pconfs) (T + 1) (by simpa using hconf1.1) hconf1.2
    (fun c hc => by rw [hgcall c hc, hB1])
  refine ⟨(List.zipWith (fun row nb => row.take (T + 1) ++ nb)
      (writeCol (List.replicate B (List.replicate (T + N) 0)) T ptoks)
      tail).map (fun r => r.drop T),
    conf2.map (fun r => r.drop T),
    ?_, ?_, ?_, ?_, ?_⟩
  · rw [generateTail]
    simp only [hpre, hloop, hcat, hwc]
  · rw [List.length_map, List.length_zipWith, hseq1.1, htl]
    simp
  · intro r hr
    rcases List.mem_map.1 hr with ⟨row, hrow, rfl⟩
    rcases mem_zipWith _ _ _ row hrow with ⟨r1, hr1, nb, hnb, rfl⟩
    have h1 : r1.length = T + N := hseq1.2 r1 hr1
    have h2 : nb.length = N - 1 := by rw [htall nb hnb, hgtl]
    rw [List.length_drop, List.length_append, List.length_take, h1, h2]
    omega
  · rw [List.length_map, hconf2l]
  · intro r hr
    rcases List.mem_map.1 hr with ⟨row, hrow, rfl⟩
    have h1 : row.length = T + N := hconf2w row hrow
    rw [List.length_drop, h1]
    omega

lemma generateCore_ok (M : Model) (cond cc : Tensor2) (T N : ℕ)
    (emb : Option Tensor2) (s : ℚ) (ci : ℤ) (im : Option (List (ℕ × ℕ)))
    (temperature : ℚ) (top_k : ℕ) (top_p : ℚ) (sl : Bool)
    (draw : ℕ → ℕ → ℕ)
    (htail : ∃ toks confs,
      generateTail M cc cond.length T N s ci im temperature top_k top_p sl
          draw = .ok (toks, confs) ∧
      toks.length = cond.length ∧ (∀ r ∈ toks, r.length = N) ∧
      confs.length = cond.length ∧ (∀ r ∈ confs, r.length = N))
    (hemb : ∀ e, emb = some e → e.length = cond.length ∧
      ∀ r ∈ e, r.length = T) :
    ∃ toks confs,
      (generateCore M cond cc T N emb s ci im temperature top_k top_p sl
        draw).2 = .ok (toks, confs) ∧
      toks.length = cond.length ∧ (∀ r ∈ toks, r.length = N) ∧
      confs.length = cond.length ∧ (∀ r ∈ confs, r.length = N) := by
  obtain ⟨toks, confs, hok, h1, h2, h3, h4⟩ := htail
  refine ⟨toks, confs, ?_, h1, h2, h3, h4⟩
  cases emb with
  | none =>
    rw [generateCore]
    exact hok
  | some e =>
    rw [generateCore]
    simp only [if_pos (hemb e rfl)]
    exact hok

/-- Claim C1 (amended): for every valid conditioning input of batch size
1, every well-shaped model and every `max_new_tokens = N ≥ 2`, `generate`
returns a token buffer of shape `(batch, N)` and a confidence buffer of
shape `(batch, N, 2)` — only the newly generated region, never the
conditioning region — regardless of guidance scale or index mapping.
(`N = 1` fails on `torch.cat` of an empty list, and batch sizes `≥ 2`
fail on the decode-confidence write-back: see the counterexample.) -/
theorem C1_generate_shapes (M : Model) (cond : Tensor2) (N : ℕ)
    (emb : Option Tensor2) (s : ℚ) (ci : ℤ) (im : Option (List (ℕ × ℕ)))
    (temperature : ℚ) (top_k : ℕ) (top_p : ℚ) (sl : Bool)
    (draw : ℕ → ℕ → ℕ) (V : ℕ)
    (hmode : M.modelType = "c2i" ∨ M.modelType = "t2i")
    (hB1 : cond.length = 1) (hV : 0 < V) (hN : 2 ≤ N)
    (hfwdP : ∀ (c : Tensor2) (ps : List ℕ),
      wfLogits (M.forward none (some c) ps) V ∧
      (M.forward none (some c) ps).length = c.length)
    (hfwdD : ∀ (t : Tensor2) (ps : List ℕ),
      wfLogits (M.forward (some t) none ps) V ∧
      (M.forward (some t) none ps).length = t.length)
    (hdraw : sl = true → ∀ st b, draw st b < V)
    (him : ∀ m, im = some m → ∀ kv ∈ m, kv.1 < V ∧ kv.2 < V)
    (hemb : ∀ e, emb = some e → e.length = cond.length ∧
      ∀ r ∈ e, r.length =
        (if M.modelType = "c2i" then 1 else (cond.headD []).length)) :
    ∃ toks confs,
      (generate M cond N emb s ci im temperature top_k top_p sl draw).2 =
        .ok (toks, confs) ∧
      toks.length = cond.length ∧ (∀ r ∈ toks, r.length = N) ∧
      confs.length = cond.length ∧ (∀ r ∈ confs, r.length = N) := by
  rcases hmode with hc2i | ht2i
  · have hcclen :
        (if 1 < s then
          cond ++ cond.map (fun row => row.map (fun _ => M.numClasses))
         else cond).length = (if 1 < s then 2 * cond.length else cond.length) := by
      by_cases hs : 1 < s
      · simp only [if_pos hs]
        rw [List.length_append, List.length_map]
        omega
      · simp only [if_neg hs]
    have htail := generateTail_ok M
      (if 1 < s then
        cond ++ cond.map (fun row => row.map (fun _ => M.numClasses))
       else cond) cond.length 1 N s ci im temperature top_k top_p sl draw V
      (hfwdP _ (List.range 1)).1
      (by rw [(hfwdP _ (List.range 1)).2, hcclen]) hfwdD hB1 hV hN hdraw
      him
    have hcore := generateCore_ok M cond
      (if 1 < s then
        cond ++ cond.map (fun row => row.map (fun _ => M.numClasses))
       else cond) 1 N emb s ci im temperature top_k top_p sl draw htail
      (by
        intro e he
        obtain ⟨h1, h2⟩ := hemb e he
        refine ⟨h1, ?_⟩
        intro r hr
        have := h2 r hr
        rwa [if_pos hc2i] at this)
    rw [generate, if_pos hc2i]
    exact hcore
  · have hne : ¬ M.modelType = "c2i" := by
      rw [ht2i]
      decide
    have hcclen :
        (if 1 < s then
          cond ++ cond.map (fun row => row.map (fun _ => M.uncondEmb))
         else cond).length = (if 1 < s then 2 * cond.length else cond.length) := by
      by_cases hs : 1 < s
      · simp only [if_pos hs]
        rw [List.length_append, List.length_map]
        omega
      · simp only [if_neg hs]
    have htail := generateTail_ok M
      (if 1 < s then
        cond ++ cond.map (fun row => row.map (fun _ => M.uncondEmb))
       else cond) cond.length (cond.headD []).length N s ci im temperature
      top_k top_p sl draw V
      (hfwdP _ (List.range (cond.headD []).length)).1
      (by rw [(hfwdP _ (List.range (cond.headD []).length)).2, hcclen])
      hfwdD hB1 hV hN hdraw him
    have hcore := generateCore_ok M cond
      (if 1 < s then
        cond ++ cond.map (fun row => row.map (fun _ => M.uncondEmb))
       else cond) (cond.headD []).length N emb s ci im temperature top_k
      top_p sl draw htail
      (by
        intro e he
        obtain ⟨h1, h2⟩ := hemb e he
        refine ⟨h1, ?_⟩
        intro r hr
        have := h2 r hr
        rwa [if_neg hne] at this)
    rw [generate, if_neg hne, if_pos ht2i]
    exact hcore

/-- A concrete class-conditional model for the C1 theorems: every batch
row gets one position with two vocabulary entries of logit 0. -/
noncomputable def unitModel : Model :=
  { modelType := "c2i", numClasses := 0, uncondEmb := 0,
    forward := fun t c _ =>
      (match t, c with
       | some x, _ => x
       | none, some y => y
       | none, none => []).map (fun _ => [[(0:ℚ), 0]]) }

/-- Counterexample to claim C1 as stated, at two concrete inputs: with
`max_new_tokens = 1` the decode loop produces no token columns and
`torch.cat` of the empty list raises; and with batch size 2 and
`max_new_tokens = 2` the decode-confidence write-back
`confidences[:, T+1] = conf` raises, because the `(2, 1, 2)`-shaped value
cannot be assigned into the `(2, 2)` destination slice.  In neither case
does `generate` return the claimed buffers. -/
theorem C1_generate_cex :
    (generate unitModel [[(0:ℚ)]] 1 none 1 (-1) none 1 0 1 true
      (fun _ _ => 0)).2 =
      .error "cat expected a non-empty list of Tensors" ∧
    (generate unitModel [[(0:ℚ)], [(0:ℚ)]] 2 none 1 (-1) none 1 0 1 true
      (fun _ _ => 0)).2 =
      .error
        "expand: number of sizes provided must be >= dims of the tensor" :=
  ⟨rfl, rfl⟩

/-- Witness for the amended C1: the concrete model, batch 1, `N = 2`. -/
theorem C1_generate_shapes_witness :
    (unitModel.modelType = "c2i" ∨ unitModel.modelType = "t2i") ∧
    (([[(0:ℚ)]] : Tensor2).length = 1) ∧ (2 ≤ 2) ∧
    ∃ toks confs,
      (generate unitModel [[(0:ℚ)]] 2 none 1 (-1) none 1 0 1 true
        (fun _ _ => 0)).2 = .ok (toks, confs) ∧
      toks.length = ([[(0:ℚ)]] : Tensor2).length ∧
      (∀ r ∈ toks, r.length = 2) ∧
      confs.length = ([[(0:ℚ)]] : Tensor2).length ∧
      (∀ r ∈ confs, r.length = 2) := by
  have hfwdP : ∀ (c : Tensor2) (ps : List ℕ),
      wfLogits (unitModel.forward none (some c) ps) 2 ∧
      (unitModel.forward none (some c) ps).length = c.length := by
    intro c ps
    constructor
    · intro r hr
      rcases List.mem_map.1 hr with ⟨row, _, rfl⟩
      exact ⟨by simp, by decide⟩
    · simp [unitModel]
  have hfwdD : ∀ (t : Tensor2) (ps : List ℕ),
      wfLogits (unitModel.forward (some t) none ps) 2 ∧
      (unitModel.forward (some t) none ps).length = t.length := by
    intro t ps
    constructor
    · intro r hr
      rcases List.mem_map.1 hr with ⟨row, _, rfl⟩
      exact ⟨by simp, by decide⟩
    · simp [unitModel]
  refine ⟨Or.inl rfl, by decide, by decide, ?_⟩
  exact C1_generate_shapes unitModel [[(0:ℚ)]] 2 none 1 (-1) none 1 0 1
    true (fun _ _ => 0) 2 (Or.inl rfl) (by decide) (by decide) (by decide)
    hfwdP hfwdD (by intro _ st b; show (0:ℕ) < 2; decide)
    (fun m h => by cases h)
    (fun e h => by cases h)

end GenArcon
